import Mathlib

/-!
Verification model of the `py-tv-ohlc` TradingView client
(`src/lib/tradingview.py`).

The shallow embedding covers:
* the JSON value domain handled by the client (`json.dumps` / `json.loads`
  as used by `TradingviewClient.send` and `_parse_message`); numbers are
  modelled as integers — the claims under study never depend on
  floating-point payload values, only on values passing through unchanged;
* the `~m~<len>~m~<payload>` wire framing (`send`) and the frame splitter
  plus classifier (`_parse_message`);
* the subscriber registry and `_notify_subscribers`;
* the connection-state guard of `send` and the state changes made by
  `connect` / the session handler / `close`;
* the paginated candle-fetch state machine (`get_candles` and its inner
  `handle_event` closure).
-/

/-- Python value domain for the JSON payloads the client exchanges.
Numbers are modelled as integers (the client never computes with payload
numbers; see the file header). Objects are ordered key/value lists, as
Python dicts preserve insertion order. -/
inductive Json where
  | null : Json
  | bool (b : Bool) : Json
  | num (n : Int) : Json
  | str (s : String) : Json
  | arr (xs : List Json) : Json
  | obj (kvs : List (String × Json)) : Json
deriving Repr

mutual

/-- Boolean structural equality on `Json` (Python `==` on these values). -/
def jbeq : Json → Json → Bool
  | .null, .null => true
  | .bool x, .bool y => x == y
  | .num x, .num y => x == y
  | .str x, .str y => x == y
  | .arr xs, .arr ys => jbeqList xs ys
  | .obj xs, .obj ys => jbeqObj xs ys
  | _, _ => false

/-- Elementwise equality of `Json` lists. -/
def jbeqList : List Json → List Json → Bool
  | [], [] => true
  | x :: xs, y :: ys => jbeq x y && jbeqList xs ys
  | _, _ => false

/-- Elementwise equality of `Json` object member lists. -/
def jbeqObj : List (String × Json) → List (String × Json) → Bool
  | [], [] => true
  | kv :: xs, kv2 :: ys => kv.1 == kv2.1 && jbeq kv.2 kv2.2 && jbeqObj xs ys
  | _, _ => false

end

mutual

theorem jbeq_iff : ∀ a b : Json, jbeq a b = true ↔ a = b
  | .null, b => by cases b <;> simp [jbeq]
  | .bool x, b => by cases b <;> simp [jbeq]
  | .num x, b => by cases b <;> simp [jbeq]
  | .str x, b => by cases b <;> simp [jbeq]
  | .arr xs, b => by
      cases b <;> simp [jbeq]
      exact jbeqList_iff xs _
  | .obj xs, b => by
      cases b <;> simp [jbeq]
      exact jbeqObj_iff xs _

theorem jbeqList_iff : ∀ xs ys : List Json, jbeqList xs ys = true ↔ xs = ys
  | [], ys => by cases ys <;> simp [jbeqList]
  | x :: xs, ys => by
      cases ys with
      | nil => simp [jbeqList]
      | cons y ys =>
          simp [jbeqList, Bool.and_eq_true, jbeq_iff x y, jbeqList_iff xs ys]

theorem jbeqObj_iff : ∀ xs ys : List (String × Json), jbeqObj xs ys = true ↔ xs = ys
  | [], ys => by cases ys <;> simp [jbeqObj]
  | kv :: xs, ys => by
      cases ys with
      | nil => simp [jbeqObj]
      | cons kv2 ys =>
          simp only [jbeqObj, Bool.and_eq_true, beq_iff_eq, jbeq_iff kv.2 kv2.2,
            jbeqObj_iff xs ys, List.cons.injEq, Prod.ext_iff]

end

instance : DecidableEq Json := fun a b => decidable_of_iff _ (jbeq_iff a b)

/-- Python list slicing `l[:k]` for an integer `k` (negative indices count
from the end; an index below `-len` yields the empty list). -/
def pySliceTo (l : List α) (k : Int) : List α :=
  l.take (if 0 ≤ k then k.toNat else ((l.length : Int) + k).toNat)

/-- Base-10 digits, least significant first, by fuelled recursion (so that
it reduces definitionally; agreement with `Nat.digits` is proved below). -/
def natDigitsAux : Nat → Nat → List Nat
  | 0, _ => []
  | _ + 1, 0 => []
  | fuel + 1, n + 1 => ((n + 1) % 10) :: natDigitsAux fuel ((n + 1) / 10)

/-- Base-10 digits of `n`, least significant first. -/
def natDigitsLE (n : Nat) : List Nat := natDigitsAux n n

/-- Decimal digit characters of a natural number, most significant first,
as Python's `str`/f-string prints it (so `0` prints as `"0"`). -/
def natChars (n : Nat) : List Char :=
  if n = 0 then ['0']
  else (natDigitsLE n).reverse.map (fun d => Char.ofNat (48 + d))

/-- Decimal digit characters of an integer, with a leading minus sign for
negative values, as Python prints an `int`. -/
def intChars (n : Int) : List Char :=
  if n < 0 then '-' :: natChars (-n).toNat else natChars n.toNat

/-- Lowercase hex digit, as used by Python's `\uXXXX` escapes. -/
def hexDigitChar (n : Nat) : Char :=
  if n < 10 then Char.ofNat (48 + n) else Char.ofNat (87 + n)

/-- The six-character escape `\uXXXX` (lowercase hex) for a code unit. -/
def uEsc (n : Nat) : List Char :=
  ['\\', 'u', hexDigitChar (n / 4096 % 16), hexDigitChar (n / 256 % 16),
   hexDigitChar (n / 16 % 16), hexDigitChar (n % 16)]

/-- How `json.dumps` (default `ensure_ascii=True`) renders one character
inside a string literal: shortcut escapes for `"` `\` and the usual control
characters, `\uXXXX` for other characters outside printable ASCII
(surrogate pairs for astral code points), the character itself otherwise. -/
def escChar (c : Char) : List Char :=
  if c = '"' then ['\\', '"']
  else if c = '\\' then ['\\', '\\']
  else if c = Char.ofNat 8 then ['\\', 'b']
  else if c = Char.ofNat 12 then ['\\', 'f']
  else if c = '\n' then ['\\', 'n']
  else if c = '\r' then ['\\', 'r']
  else if c = '\t' then ['\\', 't']
  else if c.toNat < 32 ∨ 126 < c.toNat then
    (if c.toNat < 65536 then uEsc c.toNat
     else uEsc (55296 + (c.toNat - 65536) / 1024) ++ uEsc (56320 + (c.toNat - 65536) % 1024))
  else [c]

/-- `json.dumps` rendering of a string body (without the quotes). -/
def escStr : List Char → List Char
  | [] => []
  | c :: cs => escChar c ++ escStr cs

mutual

/-- Characters of `json.dumps(v)` with Python's default separators
`", "` and `": "`. -/
def dumpsChars : Json → List Char
  | .num n => intChars n
  | .null => ['n', 'u', 'l', 'l']
  | .str s => '"' :: (escStr s.data ++ ['"'])
  | .bool true => ['t', 'r', 'u', 'e']
  | .arr xs => '[' :: (dumpsList xs ++ [']'])
  | .bool false => ['f', 'a', 'l', 's', 'e']
  | .obj kvs => '{' :: (dumpsObj kvs ++ ['}'])

/-- Array elements joined by `", "`. -/
def dumpsList : List Json → List Char
  | [] => []
  | [x] => dumpsChars x
  | x :: y :: xs => dumpsChars x ++ ',' :: ' ' :: dumpsList (y :: xs)

/-- Object members `"key": value` joined by `", "`. -/
def dumpsObj : List (String × Json) → List Char
  | [] => []
  | [kv] => '"' :: (escStr kv.1.data ++ '"' :: ':' :: ' ' :: dumpsChars kv.2)
  | kv :: kv2 :: kvs =>
      ('"' :: (escStr kv.1.data ++ '"' :: ':' :: ' ' :: dumpsChars kv.2))
        ++ ',' :: ' ' :: dumpsObj (kv2 :: kvs)

end

/-- `json.dumps` as a `String`. -/
def dumps (v : Json) : String := String.mk (dumpsChars v)

example : dumps (.obj [("m", .str "x"), ("p", .arr [.num 1, .num (-2), .bool true, .null])])
    = "\x7b\"m\": \"x\", \"p\": [1, -2, true, null]\x7d" := by rfl

example : dumps (.str "a\nb~") = "\"a\\nb~\"" := by rfl

/-- JSON whitespace accepted by Python's parser. -/
def isJWs (c : Char) : Bool := c = ' ' ∨ c = '\t' ∨ c = '\n' ∨ c = '\r'

/-- Skip JSON whitespace. -/
def skipWs (cs : List Char) : List Char := cs.dropWhile isJWs

/-- Value of a hex digit character, if any (both cases accepted). -/
def hexVal (c : Char) : Option Nat :=
  if 48 ≤ c.toNat ∧ c.toNat ≤ 57 then some (c.toNat - 48)
  else if 97 ≤ c.toNat ∧ c.toNat ≤ 102 then some (c.toNat - 87)
  else if 65 ≤ c.toNat ∧ c.toNat ≤ 70 then some (c.toNat - 55)
  else none

/-- Is `c` an ASCII decimal digit? -/
def isDigitChar (c : Char) : Bool := 48 ≤ c.toNat ∧ c.toNat ≤ 57

/-- Numeric value of a list of ASCII decimal digit characters. -/
def digitsVal (ds : List Char) : Nat := ds.foldl (fun a c => 10 * a + (c.toNat - 48)) 0

/-- Parse the body of a JSON string literal (after the opening quote) up to
and including the closing quote, decoding escapes, returning the decoded
characters and the rest of the input.  Mirrors Python's strict `json.loads`
string scanning: raw control characters are rejected; `\uXXXX` escapes are
decoded, with a high surrogate requiring an immediately following low
surrogate (a lone surrogate is rejected — Python would build a surrogate
`str`, which has no counterpart in this model's well-formed strings). -/
def parseStrBody : Nat → List Char → Option (List Char × List Char)
  | 0, _ => none
  | _ + 1, [] => none
  | fuel + 1, c :: rest =>
    if c = '"' then some ([], rest)
    else if c = '\\' then
      match rest with
      | [] => none
      | e :: r =>
        if e = '"' then (parseStrBody fuel r).map (fun p => ('"' :: p.1, p.2))
        else if e = '\\' then (parseStrBody fuel r).map (fun p => ('\\' :: p.1, p.2))
        else if e = '/' then (parseStrBody fuel r).map (fun p => ('/' :: p.1, p.2))
        else if e = 'b' then (parseStrBody fuel r).map (fun p => (Char.ofNat 8 :: p.1, p.2))
        else if e = 'f' then (parseStrBody fuel r).map (fun p => (Char.ofNat 12 :: p.1, p.2))
        else if e = 'n' then (parseStrBody fuel r).map (fun p => ('\n' :: p.1, p.2))
        else if e = 'r' then (parseStrBody fuel r).map (fun p => ('\r' :: p.1, p.2))
        else if e = 't' then (parseStrBody fuel r).map (fun p => ('\t' :: p.1, p.2))
        else if e = 'u' then
          match r with
          | h1 :: h2 :: h3 :: h4 :: r2 =>
            match hexVal h1, hexVal h2, hexVal h3, hexVal h4 with
            | some a, some b, some c3, some d =>
              let n := a * 4096 + b * 256 + c3 * 16 + d
              if 55296 ≤ n ∧ n ≤ 56319 then
                match r2 with
                | '\\' :: 'u' :: g1 :: g2 :: g3 :: g4 :: r3 =>
                  match hexVal g1, hexVal g2, hexVal g3, hexVal g4 with
                  | some a2, some b2, some c2, some d2 =>
                    let m := a2 * 4096 + b2 * 256 + c2 * 16 + d2
                    if 56320 ≤ m ∧ m ≤ 57343 then
                      (parseStrBody fuel r3).map
                        (fun p => (Char.ofNat (65536 + (n - 55296) * 1024 + (m - 56320)) :: p.1, p.2))
                    else none
                  | _, _, _, _ => none
                | _ => none
              else if 56320 ≤ n ∧ n ≤ 57343 then none
              else (parseStrBody fuel r2).map (fun p => (Char.ofNat n :: p.1, p.2))
            | _, _, _, _ => none
          | _ => none
        else none
    else if 32 ≤ c.toNat then (parseStrBody fuel rest).map (fun p => (c :: p.1, p.2))
    else none

/-- Would the character after the digit run extend the token into a float
(fraction or exponent)?  Such tokens are rejected (see `parseNum`). -/
def numBreak (rest : List Char) : Bool :=
  match rest.head? with
  | some c => c = '.' ∨ c = 'e' ∨ c = 'E'
  | none => false

/-- Parse a JSON number token.  Integers only: the model's value domain has
no floats, so a fraction or exponent is rejected rather than parsed (the
client never sends floats and no claim depends on float payloads). -/
def parseNum (cs : List Char) : Option (Json × List Char) :=
  let neg := cs.head? = some '-'
  let cs1 := if neg then cs.tail else cs
  let ds := cs1.takeWhile isDigitChar
  let rest := cs1.dropWhile isDigitChar
  if ds = [] then none
  else if 1 < ds.length ∧ ds.head? = some '0' then none
  else if numBreak rest then none
  else some (.num (if neg then -(digitsVal ds : Int) else (digitsVal ds : Int)), rest)

/-- Does the second list start with the first? -/
def listStartsWith : List Char → List Char → Bool
  | [], _ => true
  | _ :: _, [] => false
  | p :: ps, c :: cs => p = c && listStartsWith ps cs

mutual

/-- Parse one JSON value starting at the head of `cs` (caller has skipped
leading whitespace), returning the value and the unconsumed rest. -/
def parseVal : Nat → List Char → Option (Json × List Char)
  | 0, _ => none
  | _ + 1, [] => none
  | fuel + 1, c :: rest =>
    if c = '"' then
      (parseStrBody fuel rest).map (fun p => (.str (String.mk p.1), p.2))
    else if c = '[' then
      let cs1 := skipWs rest
      if cs1.head? = some ']' then some (.arr [], cs1.tail)
      else
        match parseVal fuel cs1 with
        | some (v, r) => parseArrTail fuel [v] (skipWs r)
        | none => none
    else if c = '{' then
      let cs1 := skipWs rest
      if cs1.head? = some '}' then some (.obj [], cs1.tail)
      else
        match parseMember fuel cs1 with
        | some (kv, r) => parseObjTail fuel [kv] (skipWs r)
        | none => none
    else if listStartsWith ['t', 'r', 'u', 'e'] (c :: rest) then some (.bool true, rest.drop 3)
    else if listStartsWith ['f', 'a', 'l', 's', 'e'] (c :: rest) then some (.bool false, rest.drop 4)
    else if listStartsWith ['n', 'u', 'l', 'l'] (c :: rest) then some (.null, rest.drop 3)
    else parseNum (c :: rest)

/-- After the first array element: (`, value`)* `]`. -/
def parseArrTail : Nat → List Json → List Char → Option (Json × List Char)
  | 0, _, _ => none
  | fuel + 1, acc, cs =>
    if cs.head? = some ']' then some (.arr acc, cs.tail)
    else if cs.head? = some ',' then
      match parseVal fuel (skipWs cs.tail) with
      | some (v, r2) => parseArrTail fuel (acc ++ [v]) (skipWs r2)
      | none => none
    else none

/-- One object member `"key" : value`. -/
def parseMember : Nat → List Char → Option ((String × Json) × List Char)
  | 0, _ => none
  | fuel + 1, cs =>
    if cs.head? = some '"' then
      match parseStrBody fuel cs.tail with
      | some (kcs, r1) =>
        let r1s := skipWs r1
        if r1s.head? = some ':' then
          match parseVal fuel (skipWs r1s.tail) with
          | some (v, r3) => some ((String.mk kcs, v), r3)
          | none => none
        else none
      | none => none
    else none

/-- After the first object member: (`, member`)* close brace. -/
def parseObjTail : Nat → List (String × Json) → List Char → Option (Json × List Char)
  | 0, _, _ => none
  | fuel + 1, acc, cs =>
    if cs.head? = some '}' then some (.obj acc, cs.tail)
    else if cs.head? = some ',' then
      match parseMember fuel (skipWs cs.tail) with
      | some (kv, r2) => parseObjTail fuel (acc ++ [kv]) (skipWs r2)
      | none => none
    else none

end

/-- Model of `json.loads` on a raw segment: parse one value surrounded by
optional whitespace; anything else (including trailing data) is a parse
error, returned as `none`. -/
def loads (cs : List Char) : Option Json :=
  let cs1 := skipWs cs
  match parseVal (cs1.length + 1) cs1 with
  | some (v, r) => if skipWs r = [] then some v else none
  | none => none

example : loads ("\x7b\"m\": \"x\", \"p\": [1, -2, true, null]\x7d".data)
    = some (.obj [("m", .str "x"), ("p", .arr [.num 1, .num (-2), .bool true, .null])]) := by
  rfl

example : loads ("notjson".data) = none := by rfl
example : loads ("".data) = none := by rfl
example : loads (" [ \"a\\n\", \x7b \x7d , [] ] ".data)
    = some (.arr [.str "a\n", .obj [], .arr []]) := by rfl
example : loads ("\"\\u00e9\\ud83d\\ude00~\"".data)
    = some (.str (String.mk [Char.ofNat 233, Char.ofNat 128512, '~'])) := by rfl
example : loads ("01".data) = none := by rfl
example : loads ("1.5".data) = none := by rfl
example : loads ("5".data) = some (.num 5) := by rfl

/-- Match of the regex `~m~\d+~m~` at the head of the input: on success,
return the rest of the input after the match.  (`\d+` is greedy; since a
digit can never equal `~`, the maximal digit run is the only candidate.) -/
def frameMatch : List Char → Option (List Char)
  | '~' :: 'm' :: '~' :: rest =>
    let ds := rest.takeWhile isDigitChar
    (if ds = [] then none
     else
       match rest.dropWhile isDigitChar with
       | '~' :: 'm' :: '~' :: tail => some tail
       | _ => none)
  | _ => none

/-- Left-to-right split of the input at non-overlapping matches of
`~m~\d+~m~`: returns `(piece before the first match, pieces after it)`,
so that `re.split(pat, s)` is `fst :: snd`. -/
def splitAux : Nat → List Char → List Char × List (List Char)
  | 0, _ => ([], [])
  | _ + 1, [] => ([], [])
  | fuel + 1, c :: cs =>
    match frameMatch (c :: cs) with
    | some tail =>
      let p := splitAux fuel tail
      ([], p.1 :: p.2)
    | none =>
      let p := splitAux fuel cs
      (c :: p.1, p.2)

/-- `re.split(r"~m~\d+~m~", message)[1:]`: the segments of a raw inbound
message, discarding the text before the first frame marker. -/
def splitSegs (cs : List Char) : List (List Char) := (splitAux (cs.length + 1) cs).2

example : splitSegs ("~m~7~m~notjson~m~1~m~5".data) = ["notjson".data, "5".data] := by rfl
example : splitSegs ("junk".data) = [] := by rfl
example : splitSegs [] = [] := by rfl

/-- One decoded frame, as classified by `_parse_message`: the dictionaries
`{"type": "ping"|"session"|"event", "data": ...}` of the source. -/
inductive Payload where
  | ping (data : String) : Payload
  | session (data : Json) : Payload
  | event (data : Json) : Payload
deriving DecidableEq, Repr

/-- Python substring test `pat in s` on character lists. -/
def containsSeq (pat : List Char) : List Char → Bool
  | [] => listStartsWith pat []
  | c :: cs => listStartsWith pat (c :: cs) || containsSeq pat cs

/-- Python's `"session_id" in parsed`: key lookup for a dict, membership
for a list, substring test for a string — and a `TypeError` (modelled as
`none`) for numbers, booleans and `None`, which are not iterable. -/
def sessionIdIn : Json → Option Bool
  | .obj kvs => some (kvs.any (fun kv => kv.1 = "session_id"))
  | .arr xs => some (xs.contains (.str "session_id"))
  | .str s => some (containsSeq "session_id".data s.data)
  | _ => none

/-- Classification of one split segment by `_parse_message`'s loop body:
`ok (some frame, none)` appends a frame, `ok (none, some seg)` records one
parse-failure observation (the source's `print`) and drops the segment,
and `error ()` is an uncaught `TypeError` escaping `_parse_message`. -/
def classifySeg (seg : List Char) : Except Unit (Option Payload × Option (List Char)) :=
  if seg.take 3 = ['~', 'h', '~'] then
    .ok (some (.ping ("~m~" ++ toString seg.length ++ "~m~" ++ String.mk seg)), none)
  else
    match loads seg with
    | none => .ok (none, some seg)
    | some parsed =>
      match sessionIdIn parsed with
      | none => .error ()
      | some true => .ok (some (.session parsed), none)
      | some false => .ok (some (.event parsed), none)

/-- The loop of `_parse_message` over the split segments, accumulating the
result list and the parse-failure observations in order. -/
def parseLoop : List (List Char) → List Payload → List (List Char) →
    Except Unit (List Payload × List (List Char))
  | [], frames, obs => .ok (frames, obs)
  | seg :: rest, frames, obs =>
    match classifySeg seg with
    | .error () => .error ()
    | .ok (some f, _) => parseLoop rest (frames ++ [f]) obs
    | .ok (none, _) => parseLoop rest frames (obs ++ [seg])

/-- Model of `TradingviewClient._parse_message`: split the raw text on the
frame pattern (dropping the leading piece), then classify each segment;
returns the frames and the parse-failure observations, or `error ()` if a
segment raises an uncaught `TypeError` (see `sessionIdIn`). -/
def parse_message (message : String) : Except Unit (List Payload × List (List Char)) :=
  if message.data = [] then .ok ([], [])
  else parseLoop (splitSegs message.data) [] []

/-- Model of the framing done by `TradingviewClient.send`:
`"~m~" + len(data) + "~m~" + data` with `data = json.dumps({"m": name, "p": params})`.
Python's `len` on `str` counts code points, as `List.length` on the
character list does, and the f-string renders it in decimal (`natChars`). -/
def encodeMsg (name : String) (params : List Json) : String :=
  let data := dumpsChars (.obj [("m", .str name), ("p", .arr params)])
  String.mk ("~m~".data ++ natChars data.length ++ "~m~".data ++ data)

example : encodeMsg "x" [.num 1] = "~m~20~m~\x7b\"m\": \"x\", \"p\": [1]\x7d" := by rfl

example : parse_message (encodeMsg "x" [.num 1])
    = .ok ([.event (.obj [("m", .str "x"), ("p", .arr [.num 1])])], []) := by rfl

example : parse_message "~m~7~m~notjson" = .ok ([], ["notjson".data]) := by rfl
example : parse_message "" = .ok ([], []) := by rfl
example : parse_message "~m~4~m~~h~1" = .ok ([.ping "~m~4~m~~h~1"], []) := by rfl
example : parse_message "~m~1~m~5" = .error () := by rfl

/-- Connection-relevant attributes of `TradingviewClient`: whether
`self.websocket` is set (truthy) and the `self.connected` flag. -/
structure ClientConn where
  websocket : Bool
  connected : Bool
deriving DecidableEq, Repr

/-- `TradingviewClient.__init__`: no websocket, not connected. -/
def ClientConn.init : ClientConn := { websocket := false, connected := false }

/-- The state change of `connect` up to opening the websocket
(`self.websocket = await self.session.ws_connect(...)`): the socket object
is now set, but `self.connected` is still `False` until the session event. -/
def ClientConn.wsOpen (st : ClientConn) : ClientConn := { st with websocket := true }

/-- The `on_session` handler body run on the first `session_event`:
sends `set_auth_token` (via `send`) and sets `self.connected = True`. -/
def ClientConn.onSession (st : ClientConn) : ClientConn := { st with connected := true }

/-- `TradingviewClient.close`: closes the websocket object and cancels the
reader, then sets `self.connected = False`.  `self.websocket` keeps holding
the (closed) websocket object, which is still truthy. -/
def ClientConn.closeConn (st : ClientConn) : ClientConn := { st with connected := false }

/-- Model of `TradingviewClient.send`: raises
`RuntimeError("Not connected to TradingView")` iff `self.websocket` is
unset; otherwise frames the message and queues the write, returning the
framed text. -/
def sendMsg (st : ClientConn) (name : String) (params : List Json) : Except String String :=
  if !st.websocket then .error "Not connected to TradingView"
  else .ok (encodeMsg name params)

/-- Behaviour of one registered handler on one event: return a boolean
(`true` = remove me) or raise. -/
inductive HRes where
  | ret (remove : Bool) : HRes
  | exn : HRes
deriving DecidableEq, Repr

/-- Result of one `_notify_subscribers` call.  `invoked` is the sequence of
handlers called (in iteration order of the `self.subscribers` set),
`faults` the handlers whose invocation raised (each is caught and printed),
`removed` the handlers that returned `True`, and `after` the registry
contents after the post-loop `discard` calls. -/
structure NotifyRes where
  invoked : List Nat
  faults : List Nat
  removed : List Nat
  after : List Nat
deriving DecidableEq, Repr

/-- The `for handler in self.subscribers` loop of `_notify_subscribers`:
invoke each handler in turn, collecting the handlers to remove (those
returning `True`); a raising handler is caught, reported and kept.
`subs` is the registry in its iteration order; `β` gives each handler's
behaviour on this event.  Returns `(invoked, to_remove, faults)`. -/
def notifyLoop (β : Nat → HRes) : List Nat → List Nat × List Nat × List Nat
  | [] => ([], [], [])
  | h :: hs =>
    let p := notifyLoop β hs
    match β h with
    | .ret true => (h :: p.1, h :: p.2.1, p.2.2)
    | .ret false => (h :: p.1, p.2.1, p.2.2)
    | .exn => (h :: p.1, p.2.1, h :: p.2.2)

/-- Model of `TradingviewClient._notify_subscribers`: run every handler in
the set's iteration order, then discard the handlers that asked for
removal. -/
def notifySubscribers (β : Nat → HRes) (subs : List Nat) : NotifyRes :=
  let p := notifyLoop β subs
  { invoked := p.1
    faults := p.2.2
    removed := p.2.1
    after := subs.filter (fun h => !p.2.1.contains h) }

example :
    notifySubscribers (fun h => if h = 1 then .exn else if h = 2 then .ret true else .ret false)
      [0, 1, 2, 3]
    = { invoked := [0, 1, 2, 3], faults := [1], removed := [2], after := [0, 1, 3] } := by rfl

theorem notifyLoop_invoked (β : Nat → HRes) : ∀ subs : List Nat, (notifyLoop β subs).1 = subs := by
  intro subs
  induction subs with
  | nil => rfl
  | cons h hs ih =>
    rw [notifyLoop]
    rcases β h with ⟨_ | _⟩ | _ <;> simp [ih]

theorem notifyLoop_removed_ret (β : Nat → HRes) :
    ∀ subs : List Nat, ∀ x ∈ (notifyLoop β subs).2.1, β x = .ret true ∧ x ∈ subs := by
  intro subs
  induction subs with
  | nil => intro x hx; simp [notifyLoop] at hx
  | cons h hs ih =>
    intro x hx
    rw [notifyLoop] at hx
    rcases hb : β h with ⟨b⟩ | _
    · cases b
      · rw [hb] at hx
        dsimp only at hx
        obtain ⟨h1, h2⟩ := ih x hx
        exact ⟨h1, List.mem_cons_of_mem _ h2⟩
      · rw [hb] at hx
        dsimp only at hx
        rcases List.mem_cons.mp hx with rfl | hx2
        · exact ⟨hb, List.mem_cons_self _ _⟩
        · obtain ⟨h1, h2⟩ := ih x hx2
          exact ⟨h1, List.mem_cons_of_mem _ h2⟩
    · rw [hb] at hx
      dsimp only at hx
      obtain ⟨h1, h2⟩ := ih x hx
      exact ⟨h1, List.mem_cons_of_mem _ h2⟩

theorem notifyLoop_faults (β : Nat → HRes) :
    ∀ subs : List Nat, ∀ x ∈ subs, β x = .exn → x ∈ (notifyLoop β subs).2.2 := by
  intro subs
  induction subs with
  | nil => intro x hx; simp at hx
  | cons h hs ih =>
    intro x hx hexn
    rw [notifyLoop]
    rcases List.mem_cons.mp hx with rfl | hx2
    · rw [hexn]
      dsimp only
      exact List.mem_cons_self _ _
    · rcases hb : β h with ⟨b⟩ | _
      · cases b <;> dsimp only <;> exact ih x hx2 hexn
      · dsimp only
        exact List.mem_cons_of_mem _ (ih x hx2 hexn)

/-- An event published on the bus (`TradingviewEvent` in the source). -/
structure TradingviewEvent where
  name : String
  params : List Json
deriving DecidableEq, Repr

/-- `MAX_BATCH_SIZE = 5000  # found experimentally`. -/
def MAX_BATCH_SIZE : Nat := 5000

/-- `batch_size = amount if amount and amount < MAX_BATCH_SIZE else MAX_BATCH_SIZE`
(`amount` of `0`/`None` is falsy and falls through to the cap). -/
def batchSize (amount : Option Nat) : Nat :=
  match amount with
  | some a => if a ≠ 0 ∧ a < MAX_BATCH_SIZE then a else MAX_BATCH_SIZE
  | none => MAX_BATCH_SIZE

/-- Truthiness of the optional `amount` argument. -/
def amountTruthy : Option Nat → Bool
  | none => false
  | some a => a ≠ 0

/-- The immutable OHLCV record (`Candle` in the source; the `open`
attribute is called `open_price` here, after the constructor parameter,
because `open` is a Lean keyword).  Field values are the raw `Json` row
entries, which the engine passes through unchanged. -/
structure Candle where
  timestamp : Json
  high : Json
  low : Json
  open_price : Json
  close : Json
  volume : Json
deriving DecidableEq, Repr

/-- Python `d[k]` on a parsed JSON object: last binding wins (as in a
Python dict built by the JSON decoder); `none` models the `KeyError` /
`TypeError` raised on a missing key or a non-dict value. -/
def jIndex (j : Json) (k : String) : Option Json :=
  match j with
  | .obj kvs => ((kvs.reverse).find? (fun kv => kv.1 = k)).map (fun kv => kv.2)
  | _ => none

/-- `event.params[1]['sds_1']['s']` of the `timescale_update` branch;
`none` models the `IndexError`/`KeyError`/`TypeError` escaping the handler
(a value of `'s'` that is not a list would fail on the later list
concatenation, so it is also folded into the raise case). -/
def extractRows (params : List Json) : Option (List Json) :=
  match params.get? 1 with
  | none => none
  | some p1 =>
    match jIndex p1 "sds_1" with
    | none => none
    | some s1 =>
      match jIndex s1 "s" with
      | some (.arr rows) => some rows
      | _ => none

/-- One raw row turned into a `Candle`
(`c['v'][0..5]` = timestamp, open, high, low, close, volume); `none`
models the `KeyError`/`IndexError` raised on a malformed row (a non-list
`'v'` is folded in likewise). -/
def rowToCandle (c : Json) : Option Candle :=
  match jIndex c "v" with
  | some (.arr vs) =>
    match vs.get? 0, vs.get? 1, vs.get? 2, vs.get? 3, vs.get? 4, vs.get? 5 with
    | some t, some o, some h, some l, some cl, some vol =>
      some { timestamp := t, open_price := o, high := h, low := l, close := cl, volume := vol }
    | _, _, _, _, _, _ => none
  | _ => none

/-- The per-call configuration captured by the `get_candles` closure. -/
structure FetchCfg where
  symbols : List String
  amount : Option Nat
  timeframe : String
  chart_session : String

/-- The mutable state captured by `handle_event` (`nonlocal` variables).
`symbol` itself is always `symbols[current_sym_index]` and is not stored
separately. -/
structure FetchSt where
  current_sym_index : Nat
  current_sym_candles : List Json
  all_candles : List (List Candle)
deriving DecidableEq, Repr

/-- Initial state of one `get_candles` invocation. -/
def initFetchSt : FetchSt := { current_sym_index := 0, current_sym_candles := [], all_candles := [] }

/-- A message passed to `client.send`: name and params. -/
abbrev SendMsg := String × List Json

/-- The `'=' + json.dumps({"symbol": symbol, "adjustment": "splits"})`
symbol spec. -/
def symSpec (sym : String) : String :=
  "=" ++ dumps (.obj [("symbol", .str sym), ("adjustment", .str "splits")])

/-- Outcome of one `handle_event` invocation: either a normal return
(updated state, messages sent, the returned boolean, and the value passed
to `result_future.set_result` if any), or a raise escaping the handler
(with the state as mutated up to the raise point, and the messages sent
before it). -/
inductive StepRes where
  | ok (st : FetchSt) (sends : List SendMsg) (remove : Bool) (resolved : Option (List Candle)) : StepRes
  | raised (st : FetchSt) (sends : List SendMsg) : StepRes
deriving DecidableEq, Repr

/-- State after the step (also for a raise, whose earlier mutations persist). -/
def StepRes.stOut : StepRes → FetchSt
  | .ok st _ _ _ => st
  | .raised st _ => st

/-- Messages sent during the step. -/
def StepRes.sendsOut : StepRes → List SendMsg
  | .ok _ s _ _ => s
  | .raised _ s => s

/-- Whether the handler asked the bus to remove it (a raise is caught by
`_notify_subscribers` and keeps the handler). -/
def StepRes.isRemove : StepRes → Bool
  | .ok _ _ r _ => r
  | .raised _ _ => false

/-- The value resolved into `result_future` during the step, if any. -/
def StepRes.resolvedOut : StepRes → Option (List Candle)
  | .ok _ _ _ v => v
  | .raised _ _ => none

/-- Model of the `handle_event` closure inside `get_candles`, translated
branch for branch from the source. -/
def handle_event (cfg : FetchCfg) (st : FetchSt) (ev : TradingviewEvent) : StepRes :=
  let bs := batchSize cfg.amount
  if ev.name = "timescale_update" then
    match extractRows ev.params with
    | none => .raised st []
    | some rows =>
      let new_candles :=
        if bs < rows.length then
          pySliceTo rows ((rows.length : Int) - (st.current_sym_candles.length : Int))
        else rows
      .ok { st with current_sym_candles := new_candles ++ st.current_sym_candles } [] false none
  else if ev.name = "series_completed" ∨ ev.name = "symbol_error" then
    let loaded := st.current_sym_candles.length
    if 0 < loaded ∧ loaded % bs = 0 ∧
        (match cfg.amount with
         | none => true
         | some a => a = 0 || decide (loaded < a)) = true then
      .ok st [("request_more_data", [.str cfg.chart_session, .str "sds_1", .num (bs : Int)])]
        false none
    else
      let acc1 :=
        if amountTruthy cfg.amount then pySliceTo st.current_sym_candles ((cfg.amount.getD 0 : Nat) : Int)
        else st.current_sym_candles
      let st1 := { st with current_sym_candles := acc1 }
      match acc1.mapM rowToCandle with
      | none => .raised st1 []
      | some candles =>
        let all1 := st1.all_candles ++ [candles]
        if st1.current_sym_index + 1 < cfg.symbols.length then
          let next := st1.current_sym_index + 1
          .ok { current_sym_index := next, current_sym_candles := [], all_candles := all1 }
            [("resolve_symbol",
                [.str cfg.chart_session, .str ("sds_sym_" ++ toString next),
                 .str (symSpec (cfg.symbols.getD next ""))]),
             ("modify_series",
                [.str cfg.chart_session, .str "sds_1", .str ("s" ++ toString next),
                 .str ("sds_sym_" ++ toString next), .str cfg.timeframe, .str ""])]
            false none
        else
          .ok { st1 with all_candles := all1 } [] true (some (all1.headD []))
  else
    .ok st [] false none

/-- Result of feeding a sequence of published events to the registered
`handle_event`: final state, all messages sent, the resolved value (if the
future was resolved), and whether the handler asked for removal (after
which later events no longer reach it). -/
structure RunRes where
  st : FetchSt
  sends : List SendMsg
  resolved : Option (List Candle)
  removed : Bool
deriving DecidableEq, Repr

/-- Feed events one by one; a raise keeps the handler registered (caught
by `_notify_subscribers`), removal stops delivery. -/
def runEvents (cfg : FetchCfg) (st : FetchSt) : List TradingviewEvent → RunRes
  | [] => { st := st, sends := [], resolved := none, removed := false }
  | ev :: evs =>
    match handle_event cfg st ev with
    | .raised st1 sends =>
      let r := runEvents cfg st1 evs
      { r with sends := sends ++ r.sends }
    | .ok st1 sends remove resolved =>
      if remove then { st := st1, sends := sends, resolved := resolved, removed := true }
      else
        let r := runEvents cfg st1 evs
        { r with sends := sends ++ r.sends }

/-- A well-formed `timescale_update` event carrying the given rows
(`p[1]["sds_1"]["s"]`, as in §6 of the spec). -/
def mkTimescaleUpdate (rows : List Json) : TradingviewEvent :=
  { name := "timescale_update",
    params := [.null, .obj [("sds_1", .obj [("s", .arr rows)])]] }

/-- A well-formed raw row with `v = [timestamp, open, high, low, close, volume]`. -/
def mkRow (t o h l c v : Int) : Json :=
  .obj [("v", .arr [.num t, .num o, .num h, .num l, .num c, .num v])]

/-- The entry of `get_candles` before any awaiting: an empty symbol list
returns `[]` at once; otherwise the handler is registered and the three
session-opening messages are sent. -/
inductive GetCandlesStart where
  | immediate (result : List Candle) : GetCandlesStart
  | engaged (registersHandler : Bool) (sends : List SendMsg) : GetCandlesStart
deriving DecidableEq, Repr

/-- Model of the start of `get_candles` (`if not symbols: return []`, else
register `handle_event` and send `chart_create_session`, `resolve_symbol`,
`create_series`). -/
def get_candles_start (symbols : List String) (amount : Option Nat)
    (timeframe : String) (chart_session : String) : GetCandlesStart :=
  if symbols.isEmpty then .immediate []
  else
    let bs := batchSize amount
    .engaged true
      [("chart_create_session", [.str chart_session, .str ""]),
       ("resolve_symbol",
          [.str chart_session, .str "sds_sym_0", .str (symSpec (symbols.getD 0 ""))]),
       ("create_series",
          [.str chart_session, .str "sds_1", .str "s0", .str "sds_sym_0",
           .str timeframe, .num (bs : Int), .str ""])]

theorem natDigitsAux_eq : ∀ fuel n : Nat, n ≤ fuel → natDigitsAux fuel n = Nat.digits 10 n := by
  intro fuel
  induction fuel with
  | zero => intro n h; interval_cases n; simp [natDigitsAux]
  | succ fuel ih =>
    intro n h
    cases n with
    | zero => simp [natDigitsAux]
    | succ m =>
      rw [natDigitsAux, Nat.digits_def' (b := 10) (by norm_num) (Nat.succ_pos m),
        ih ((m + 1) / 10) (by
          have := Nat.div_le_self (m + 1) 10
          have := Nat.div_lt_self (Nat.succ_pos m) (by norm_num : (1 : Nat) < 10)
          omega)]

theorem natDigitsLE_eq (n : Nat) : natDigitsLE n = Nat.digits 10 n :=
  natDigitsAux_eq n n le_rfl

theorem digitCharFacts : ∀ d : Fin 10,
    isDigitChar (Char.ofNat (48 + d.val)) = true ∧
    (Char.ofNat (48 + d.val)).toNat = 48 + d.val ∧
    Char.ofNat (48 + d.val) ≠ '-' ∧
    (d.val ≠ 0 → Char.ofNat (48 + d.val) ≠ '0') ∧
    isJWs (Char.ofNat (48 + d.val)) = false ∧
    Char.ofNat (48 + d.val) ≠ '.' ∧ Char.ofNat (48 + d.val) ≠ 'e' ∧
    Char.ofNat (48 + d.val) ≠ 'E' := by decide

theorem natChars_mem_digit {n : Nat} {c : Char} (hc : c ∈ natChars n) :
    ∃ d : Fin 10, c = Char.ofNat (48 + d.val) := by
  unfold natChars at hc
  by_cases hn : n = 0
  · simp [hn] at hc
    exact ⟨⟨0, by norm_num⟩, by simpa using hc⟩
  · simp only [hn, if_false, List.mem_map, List.mem_reverse] at hc
    obtain ⟨d, hd, rfl⟩ := hc
    rw [natDigitsLE_eq] at hd
    exact ⟨⟨d, Nat.digits_lt_base (by norm_num) hd⟩, rfl⟩

theorem natChars_ne_nil (n : Nat) : natChars n ≠ [] := by
  unfold natChars
  by_cases hn : n = 0
  · simp [hn]
  · simp only [hn, if_false]
    simp only [ne_eq, List.map_eq_nil_iff, List.reverse_eq_nil_iff, natDigitsLE_eq]
    exact Nat.digits_ne_nil_iff_ne_zero.mpr hn

theorem digitsVal_reverse_map (L : List Nat) (hL : ∀ d ∈ L, d < 10) :
    digitsVal (L.reverse.map (fun d => Char.ofNat (48 + d))) = Nat.ofDigits 10 L := by
  induction L with
  | nil => simp [digitsVal, Nat.ofDigits]
  | cons d ds ih =>
    have hd : d < 10 := hL d (List.mem_cons_self d ds)
    have hds : ∀ e ∈ ds, e < 10 := fun e he => hL e (List.mem_cons_of_mem d he)
    have htoNat : (Char.ofNat (48 + d)).toNat = 48 + d := (digitCharFacts ⟨d, hd⟩).2.1
    simp only [List.reverse_cons, List.map_append, List.map_cons, List.map_nil]
    unfold digitsVal
    rw [List.foldl_append]
    unfold digitsVal at ih
    rw [ih hds, Nat.ofDigits_cons]
    simp [htoNat]
    ring

theorem digitsVal_natChars (n : Nat) : digitsVal (natChars n) = n := by
  unfold natChars
  by_cases hn : n = 0
  · simp [hn, digitsVal]
  · simp only [hn, if_false, natDigitsLE_eq]
    rw [digitsVal_reverse_map _ (fun d hd => Nat.digits_lt_base (by norm_num) hd),
      Nat.ofDigits_digits]

theorem natChars_no_leading_zero (n : Nat) :
    ¬ (1 < (natChars n).length ∧ (natChars n).head? = some '0') := by
  by_cases hn : n = 0
  · simp [natChars, hn]
  · rintro ⟨_, hhead⟩
    unfold natChars at hhead
    simp only [hn, if_false] at hhead
    rw [List.head?_map, List.head?_reverse] at hhead
    have hne : natDigitsLE n ≠ [] := by
      rw [natDigitsLE_eq]; exact Nat.digits_ne_nil_iff_ne_zero.mpr hn
    rw [List.getLast?_eq_getLast _ hne] at hhead
    set g := (natDigitsLE n).getLast hne with hgdef
    have hgmem : g ∈ Nat.digits 10 n := by
      rw [← natDigitsLE_eq]; exact List.getLast_mem hne
    have hg10 : g < 10 := Nat.digits_lt_base (by norm_num) hgmem
    have hne2 : Nat.digits 10 n ≠ [] := Nat.digits_ne_nil_iff_ne_zero.mpr hn
    have hg0 : g ≠ 0 := by
      have hlast := Nat.getLast_digit_ne_zero 10 hn
      have : (natDigitsLE n).getLast hne = (Nat.digits 10 n).getLast hne2 := by
        congr 1
        rw [natDigitsLE_eq]
      rw [← hgdef] at this
      rw [this]
      exact hlast
    have : Char.ofNat (48 + g) = '0' := by
      simpa using hhead
    exact (digitCharFacts ⟨g, hg10⟩).2.2.2.1 hg0 this

/-- Safety of the text following a serialized number: the next character
(if any) must not extend the number token. -/
def numSafe : List Char → Bool
  | [] => true
  | c :: _ => !isDigitChar c && c ≠ '.' && c ≠ 'e' && c ≠ 'E' && c ≠ '-'

theorem takeWhile_digits (ds rest : List Char)
    (hds : ∀ c ∈ ds, isDigitChar c = true) (hrest : numSafe rest = true) :
    (ds ++ rest).takeWhile isDigitChar = ds ∧ (ds ++ rest).dropWhile isDigitChar = rest := by
  induction ds with
  | nil =>
    cases rest with
    | nil => simp
    | cons c cs =>
      simp only [numSafe, Bool.and_eq_true, Bool.not_eq_true'] at hrest
      simp [List.takeWhile_cons, List.dropWhile_cons, hrest.1.1.1.1]
  | cons d ds ih =>
    have hd : isDigitChar d = true := hds d (List.mem_cons_self d ds)
    have ih2 := ih (fun c hc => hds c (List.mem_cons_of_mem d hc))
    simp [List.takeWhile_cons, List.dropWhile_cons, hd, ih2.1, ih2.2]

theorem numBreak_of_numSafe (rest : List Char) (h : numSafe rest = true) :
    ¬ (numBreak rest = true) := by
  cases rest with
  | nil => simp [numBreak]
  | cons c cs =>
    simp only [numSafe, Bool.and_eq_true, Bool.not_eq_true', decide_eq_true_eq] at h
    simp only [numBreak, List.head?_cons, decide_eq_true_eq]
    push_neg
    refine ⟨?_, ?_, ?_⟩
    · simpa using h.1.1.1.2
    · simpa using h.1.1.2
    · simpa using h.1.2

theorem parseNum_intChars (n : Int) (rest : List Char) (hrest : numSafe rest = true) :
    parseNum (intChars n ++ rest) = some (.num n, rest) := by
  have hdig : ∀ m : Nat, ∀ c ∈ natChars m, isDigitChar c = true := by
    intro m c hc
    obtain ⟨d, rfl⟩ := natChars_mem_digit hc
    exact (digitCharFacts d).1
  rcases lt_or_le n 0 with hneg | hpos
  · have : intChars n = '-' :: natChars (-n).toNat := by
      unfold intChars; simp [hneg]
    rw [this]
    obtain ⟨c0, cs0, hcons⟩ := List.exists_cons_of_ne_nil (natChars_ne_nil (-n).toNat)
    unfold parseNum
    have hsplit := takeWhile_digits (natChars (-n).toNat) rest (hdig _) hrest
    simp only [List.cons_append, List.head?_cons, Option.some.injEq]
    simp only [ite_true, List.tail_cons]
    rw [hsplit.1, hsplit.2]
    have hne := natChars_ne_nil (-n).toNat
    rw [if_neg hne]
    rw [if_neg (natChars_no_leading_zero (-n).toNat)]
    have hval : digitsVal (natChars (-n).toNat) = (-n).toNat := digitsVal_natChars _
    have hcast : -((-n).toNat : Int) = n := by omega
    rw [if_neg (numBreak_of_numSafe rest hrest)]
    simp only [hval]
    rw [hcast]
  · have hm : n = ((n.toNat : Nat) : Int) := by omega
    have hmnc : intChars n = natChars n.toNat := by
      unfold intChars
      rw [if_neg (by omega)]
    rw [hmnc]
    have hheadne : ¬ ((natChars n.toNat ++ rest).head? = some '-') := by
      obtain ⟨c0, cs0, hcons⟩ := List.exists_cons_of_ne_nil (natChars_ne_nil n.toNat)
      have hc0 : c0 ∈ natChars n.toNat := by rw [hcons]; exact List.mem_cons_self _ _
      obtain ⟨d, hd⟩ := natChars_mem_digit hc0
      rw [hcons]
      simp only [List.cons_append, List.head?_cons, Option.some.injEq]
      rw [hd]
      exact (digitCharFacts d).2.2.1
    unfold parseNum
    dsimp only
    have hsplit := takeWhile_digits (natChars n.toNat) rest (hdig _) hrest
    rw [if_neg hheadne]
    rw [hsplit.1, hsplit.2]
    rw [if_neg (natChars_ne_nil n.toNat)]
    rw [if_neg (natChars_no_leading_zero n.toNat)]
    rw [if_neg (numBreak_of_numSafe rest hrest)]
    have hval : digitsVal (natChars n.toNat) = n.toNat := digitsVal_natChars _
    simp only [hval]
    rw [← hm, if_neg hheadne]

theorem hexVal_hexDigitChar : ∀ k : Fin 16, hexVal (hexDigitChar k.val) = some k.val := by
  decide

theorem parseStrBody_uEsc_step (n : Nat) (hlt : n < 65536)
    (hhi : ¬(55296 ≤ n ∧ n ≤ 56319)) (hlo : ¬(56320 ≤ n ∧ n ≤ 57343))
    (tail : List Char) (fuel : Nat) :
    parseStrBody (fuel + 1) (uEsc n ++ tail)
      = (parseStrBody fuel tail).map (fun p => (Char.ofNat n :: p.1, p.2)) := by
  have h1 := hexVal_hexDigitChar ⟨n / 4096 % 16, Nat.mod_lt _ (by norm_num)⟩
  have h2 := hexVal_hexDigitChar ⟨n / 256 % 16, Nat.mod_lt _ (by norm_num)⟩
  have h3 := hexVal_hexDigitChar ⟨n / 16 % 16, Nat.mod_lt _ (by norm_num)⟩
  have h4 := hexVal_hexDigitChar ⟨n % 16, Nat.mod_lt _ (by norm_num)⟩
  simp only [uEsc, List.cons_append]
  rw [parseStrBody]
  simp only [Char.reduceEq, reduceIte, List.nil_append, h1, h2, h3, h4]
  have hval : n / 4096 % 16 * 4096 + n / 256 % 16 * 256 + n / 16 % 16 * 16 + n % 16 = n := by
    omega
  rw [hval]
  rw [if_neg hhi, if_neg hlo]

theorem parseStrBody_highLow (hi lo : Nat)
    (hhir : 55296 ≤ hi ∧ hi ≤ 56319) (hlor : 56320 ≤ lo ∧ lo ≤ 57343)
    (tail : List Char) (fuel : Nat) :
    parseStrBody (fuel + 1) (uEsc hi ++ (uEsc lo ++ tail))
      = (parseStrBody fuel tail).map
          (fun p => (Char.ofNat (65536 + (hi - 55296) * 1024 + (lo - 56320)) :: p.1, p.2)) := by
  have ha1 := hexVal_hexDigitChar ⟨hi / 4096 % 16, Nat.mod_lt _ (by norm_num)⟩
  have ha2 := hexVal_hexDigitChar ⟨hi / 256 % 16, Nat.mod_lt _ (by norm_num)⟩
  have ha3 := hexVal_hexDigitChar ⟨hi / 16 % 16, Nat.mod_lt _ (by norm_num)⟩
  have ha4 := hexVal_hexDigitChar ⟨hi % 16, Nat.mod_lt _ (by norm_num)⟩
  have hb1 := hexVal_hexDigitChar ⟨lo / 4096 % 16, Nat.mod_lt _ (by norm_num)⟩
  have hb2 := hexVal_hexDigitChar ⟨lo / 256 % 16, Nat.mod_lt _ (by norm_num)⟩
  have hb3 := hexVal_hexDigitChar ⟨lo / 16 % 16, Nat.mod_lt _ (by norm_num)⟩
  have hb4 := hexVal_hexDigitChar ⟨lo % 16, Nat.mod_lt _ (by norm_num)⟩
  have hvhi : hi / 4096 % 16 * 4096 + hi / 256 % 16 * 256 + hi / 16 % 16 * 16 + hi % 16 = hi := by
    omega
  have hvlo : lo / 4096 % 16 * 4096 + lo / 256 % 16 * 256 + lo / 16 % 16 * 16 + lo % 16 = lo := by
    omega
  simp only [uEsc, List.cons_append]
  rw [parseStrBody]
  simp only [Char.reduceEq, reduceIte, List.nil_append, ha1, ha2, ha3, ha4]
  rw [hvhi, if_pos hhir]
  simp only [hb1, hb2, hb3, hb4]
  rw [hvlo]
  rw [if_pos hlor]

theorem parseStrBody_surrogatePair (n : Nat) (h1 : 65536 ≤ n) (h2 : n < 1114112)
    (tail : List Char) (fuel : Nat) :
    parseStrBody (fuel + 1)
        ((uEsc (55296 + (n - 65536) / 1024) ++ uEsc (56320 + (n - 65536) % 1024)) ++ tail)
      = (parseStrBody fuel tail).map (fun p => (Char.ofNat n :: p.1, p.2)) := by
  have hdivle : (n - 65536) / 1024 ≤ 1023 := by omega
  have hmodlt : (n - 65536) % 1024 < 1024 := Nat.mod_lt _ (by norm_num)
  rw [List.append_assoc]
  rw [parseStrBody_highLow (55296 + (n - 65536) / 1024) (56320 + (n - 65536) % 1024)
    (by omega) (by omega) tail fuel]
  have hcomb : 65536 + (55296 + (n - 65536) / 1024 - 55296) * 1024 + (56320 + (n - 65536) % 1024 - 56320) = n := by
    have := Nat.div_add_mod (n - 65536) 1024
    omega
  rw [hcomb]

theorem char_valid_nat (c : Char) :
    c.toNat < 55296 ∨ (57343 < c.toNat ∧ c.toNat < 1114112) := by
  have h := c.valid
  unfold UInt32.isValidChar Nat.isValidChar at h
  rcases h with h | h
  · left
    exact h
  · right
    exact h

theorem parseStrBody_escQuote (tail : List Char) (fuel : Nat) :
    parseStrBody (fuel + 1) ('\\' :: '"' :: tail)
      = (parseStrBody fuel tail).map (fun p => ('"' :: p.1, p.2)) := by
  simp only [parseStrBody, Char.reduceEq, reduceIte]

theorem parseStrBody_escBackslash (tail : List Char) (fuel : Nat) :
    parseStrBody (fuel + 1) ('\\' :: '\\' :: tail)
      = (parseStrBody fuel tail).map (fun p => ('\\' :: p.1, p.2)) := by
  simp only [parseStrBody, Char.reduceEq, reduceIte]

theorem parseStrBody_escB (tail : List Char) (fuel : Nat) :
    parseStrBody (fuel + 1) ('\\' :: 'b' :: tail)
      = (parseStrBody fuel tail).map (fun p => (Char.ofNat 8 :: p.1, p.2)) := by
  simp only [parseStrBody, Char.reduceEq, reduceIte]

theorem parseStrBody_escF (tail : List Char) (fuel : Nat) :
    parseStrBody (fuel + 1) ('\\' :: 'f' :: tail)
      = (parseStrBody fuel tail).map (fun p => (Char.ofNat 12 :: p.1, p.2)) := by
  simp only [parseStrBody, Char.reduceEq, reduceIte]

theorem parseStrBody_escN (tail : List Char) (fuel : Nat) :
    parseStrBody (fuel + 1) ('\\' :: 'n' :: tail)
      = (parseStrBody fuel tail).map (fun p => ('\n' :: p.1, p.2)) := by
  simp only [parseStrBody, Char.reduceEq, reduceIte]

theorem parseStrBody_escR (tail : List Char) (fuel : Nat) :
    parseStrBody (fuel + 1) ('\\' :: 'r' :: tail)
      = (parseStrBody fuel tail).map (fun p => ('\r' :: p.1, p.2)) := by
  simp only [parseStrBody, Char.reduceEq, reduceIte]

theorem parseStrBody_escT (tail : List Char) (fuel : Nat) :
    parseStrBody (fuel + 1) ('\\' :: 't' :: tail)
      = (parseStrBody fuel tail).map (fun p => ('\t' :: p.1, p.2)) := by
  simp only [parseStrBody, Char.reduceEq, reduceIte]

theorem parseStrBody_escStr :
    ∀ (s rest : List Char) (fuel : Nat), (escStr s).length < fuel →
      parseStrBody fuel (escStr s ++ '"' :: rest) = some (s, rest) := by
  intro s
  induction s with
  | nil =>
    intro rest fuel h
    cases fuel with
    | zero => simp [escStr] at h
    | succ f =>
      rw [escStr]
      simp only [List.nil_append]
      simp only [parseStrBody]
      simp [Char.reduceEq, reduceIte]
  | cons c cs ih =>
    intro rest fuel h
    rw [escStr] at h ⊢
    by_cases h1 : c = '"'
    · subst h1
      rw [show escChar '"' = ['\\', '"'] from by simp [escChar]] at h ⊢
      cases fuel with
      | zero => simp at h
      | succ f =>
        simp only [List.cons_append, List.nil_append, List.length_cons] at h ⊢
        rw [parseStrBody_escQuote, ih rest f (by omega)]
        rfl
    · by_cases h2 : c = '\\'
      · subst h2
        rw [show escChar '\\' = ['\\', '\\'] from by simp [escChar]] at h ⊢
        cases fuel with
        | zero => simp at h
        | succ f =>
          simp only [List.cons_append, List.nil_append, List.length_cons] at h ⊢
          rw [parseStrBody_escBackslash, ih rest f (by omega)]
          rfl
      · by_cases h3 : c = Char.ofNat 8
        · subst h3
          rw [show escChar (Char.ofNat 8) = ['\\', 'b'] from by simp [escChar]] at h ⊢
          cases fuel with
          | zero => simp at h
          | succ f =>
            simp only [List.cons_append, List.nil_append, List.length_cons] at h ⊢
            rw [parseStrBody_escB, ih rest f (by omega)]
            rfl
        · by_cases h4 : c = Char.ofNat 12
          · subst h4
            rw [show escChar (Char.ofNat 12) = ['\\', 'f'] from by simp [escChar]] at h ⊢
            cases fuel with
            | zero => simp at h
            | succ f =>
              simp only [List.cons_append, List.nil_append, List.length_cons] at h ⊢
              rw [parseStrBody_escF, ih rest f (by omega)]
              rfl
          · by_cases h5 : c = '\n'
            · subst h5
              rw [show escChar '\n' = ['\\', 'n'] from by simp [escChar]] at h ⊢
              cases fuel with
              | zero => simp at h
              | succ f =>
                simp only [List.cons_append, List.nil_append, List.length_cons] at h ⊢
                rw [parseStrBody_escN, ih rest f (by omega)]
                rfl
            · by_cases h6 : c = '\r'
              · subst h6
                rw [show escChar '\r' = ['\\', 'r'] from by simp [escChar]] at h ⊢
                cases fuel with
                | zero => simp at h
                | succ f =>
                  simp only [List.cons_append, List.nil_append, List.length_cons] at h ⊢
                  rw [parseStrBody_escR, ih rest f (by omega)]
                  rfl
              · by_cases h7 : c = '\t'
                · subst h7
                  rw [show escChar '\t' = ['\\', 't'] from by simp [escChar]] at h ⊢
                  cases fuel with
                  | zero => simp at h
                  | succ f =>
                    simp only [List.cons_append, List.nil_append, List.length_cons] at h ⊢
                    rw [parseStrBody_escT, ih rest f (by omega)]
                    rfl
                · by_cases h8 : c.toNat < 32 ∨ 126 < c.toNat
                  · rw [show escChar c
                        = (if c.toNat < 65536 then uEsc c.toNat
                           else uEsc (55296 + (c.toNat - 65536) / 1024) ++
                             uEsc (56320 + (c.toNat - 65536) % 1024)) from by
                      unfold escChar
                      rw [if_neg h1, if_neg h2, if_neg h3, if_neg h4, if_neg h5, if_neg h6,
                        if_neg h7, if_pos h8]] at h ⊢
                    by_cases h9 : c.toNat < 65536
                    · rw [if_pos h9] at h ⊢
                      cases fuel with
                      | zero => simp [uEsc] at h
                      | succ f =>
                        have hvr := char_valid_nat c
                        rw [List.append_assoc]
                        rw [parseStrBody_uEsc_step c.toNat h9 (by omega) (by omega)
                          (escStr cs ++ '"' :: rest) f]
                        rw [ih rest f (by
                          simp only [List.length_append, uEsc, List.length_cons] at h
                          omega)]
                        rw [Char.ofNat_toNat]
                        rfl
                    · rw [if_neg h9] at h ⊢
                      cases fuel with
                      | zero => simp [uEsc] at h
                      | succ f =>
                        have hvr := char_valid_nat c
                        rw [List.append_assoc]
                        rw [parseStrBody_surrogatePair c.toNat (by omega) (by omega)
                          (escStr cs ++ '"' :: rest) f]
                        rw [ih rest f (by
                          simp only [List.length_append, uEsc, List.length_cons] at h
                          omega)]
                        rw [Char.ofNat_toNat]
                        rfl
                  · rw [show escChar c = [c] from by
                      unfold escChar
                      rw [if_neg h1, if_neg h2, if_neg h3, if_neg h4, if_neg h5, if_neg h6,
                        if_neg h7, if_neg h8]] at h ⊢
                    cases fuel with
                    | zero => simp at h
                    | succ f =>
                      simp only [List.cons_append, List.nil_append, List.length_cons] at h ⊢
                      simp only [parseStrBody]
                      rw [if_neg h1, if_neg h2, if_pos (by omega : 32 ≤ c.toNat)]
                      rw [ih rest f (by omega)]
                      rfl

/-- The `", " element` repetition after an array's first element. -/
def arrTailChars : List Json → List Char
  | [] => []
  | x :: xs => ',' :: ' ' :: (dumpsChars x ++ arrTailChars xs)

/-- One serialized object member `"key": value`. -/
def memChars (kv : String × Json) : List Char :=
  '"' :: (escStr kv.1.data ++ '"' :: ':' :: ' ' :: dumpsChars kv.2)

/-- The `", " member` repetition after an object's first member. -/
def objTailChars : List (String × Json) → List Char
  | [] => []
  | kv :: kvs => ',' :: ' ' :: (memChars kv ++ objTailChars kvs)

theorem dumpsList_cons : ∀ (x : Json) (xs : List Json),
    dumpsList (x :: xs) = dumpsChars x ++ arrTailChars xs := by
  intro x xs
  cases xs with
  | nil => simp [dumpsList, arrTailChars]
  | cons y ys =>
    rw [dumpsList, dumpsList_cons y ys]
    simp [arrTailChars]

theorem dumpsObj_cons : ∀ (kv : String × Json) (kvs : List (String × Json)),
    dumpsObj (kv :: kvs) = memChars kv ++ objTailChars kvs := by
  intro kv kvs
  cases kvs with
  | nil => simp [dumpsObj, memChars, objTailChars]
  | cons kv2 kvs2 =>
    rw [dumpsObj, dumpsObj_cons kv2 kvs2]
    simp [memChars, objTailChars]

theorem digit_char_ne (c : Char) (hc : isDigitChar c = true) :
    c ≠ '"' ∧ c ≠ '[' ∧ c ≠ '{' ∧ c ≠ 't' ∧ c ≠ 'f' ∧ c ≠ 'n' ∧ c ≠ ']' ∧ c ≠ '}' ∧
      isJWs c = false ∧ c ≠ '-' ∧ c ≠ ',' := by
  simp only [isDigitChar, decide_eq_true_eq] at hc
  refine ⟨?_, ?_, ?_, ?_, ?_, ?_, ?_, ?_, ?_, ?_, ?_⟩ <;>
    first
      | (rintro rfl; revert hc; decide)
      | (simp only [isJWs, decide_eq_false_iff_not]
         rintro (rfl | rfl | rfl | rfl) <;> revert hc <;> decide)

/-- The first character of a serialization is never whitespace nor a
closing bracket/brace; in particular `skipWs` leaves it alone. -/
theorem dumps_head_spec (v : Json) :
    ∃ c r2, dumpsChars v = c :: r2 ∧ isJWs c = false ∧ c ≠ ']' ∧ c ≠ '}' := by
  have lit : ∀ c ∈ ['n', 't', 'f', '-', '"', '[', '{'],
      isJWs c = false ∧ c ≠ ']' ∧ c ≠ '}' := by decide
  cases v with
  | null => exact ⟨'n', _, rfl, lit 'n' (by decide)⟩
  | bool b =>
    cases b with
    | true => exact ⟨'t', _, rfl, lit 't' (by decide)⟩
    | false => exact ⟨'f', _, rfl, lit 'f' (by decide)⟩
  | num n =>
    rw [show dumpsChars (.num n) = intChars n from rfl]
    unfold intChars
    by_cases hn : n < 0
    · exact ⟨'-', _, by rw [if_pos hn], lit '-' (by decide)⟩
    · rw [if_neg hn]
      obtain ⟨c0, cs0, hcons⟩ := List.exists_cons_of_ne_nil (natChars_ne_nil n.toNat)
      have hc0 : c0 ∈ natChars n.toNat := by rw [hcons]; exact List.mem_cons_self _ _
      obtain ⟨d, rfl⟩ := natChars_mem_digit hc0
      have hd := digit_char_ne _ (digitCharFacts d).1
      exact ⟨_, cs0, hcons, hd.2.2.2.2.2.2.2.2.1, hd.2.2.2.2.2.2.1, hd.2.2.2.2.2.2.2.1⟩
  | str s => exact ⟨'"', _, rfl, lit '"' (by decide)⟩
  | arr xs => exact ⟨'[', _, rfl, lit '[' (by decide)⟩
  | obj kvs => exact ⟨'{', _, rfl, lit '{' (by decide)⟩

theorem skipWs_dumps (v : Json) (r : List Char) :
    skipWs (dumpsChars v ++ r) = dumpsChars v ++ r := by
  obtain ⟨c, r2, hcons, hws, _, _⟩ := dumps_head_spec v
  rw [hcons]
  simp [skipWs, List.dropWhile_cons, hws]

theorem dumps_length_pos (v : Json) : 0 < (dumpsChars v).length := by
  obtain ⟨c, r2, hcons, _, _, _⟩ := dumps_head_spec v
  rw [hcons]
  simp

theorem parseVal_nullLit (rest : List Char) (fuel : Nat) :
    parseVal (fuel + 1) ('n' :: 'u' :: 'l' :: 'l' :: rest) = some (.null, rest) := by
  simp [parseVal, listStartsWith, Char.reduceEq, reduceIte]

theorem parseVal_trueLit (rest : List Char) (fuel : Nat) :
    parseVal (fuel + 1) ('t' :: 'r' :: 'u' :: 'e' :: rest) = some (.bool true, rest) := by
  simp [parseVal, listStartsWith, Char.reduceEq, reduceIte]

theorem parseVal_falseLit (rest : List Char) (fuel : Nat) :
    parseVal (fuel + 1) ('f' :: 'a' :: 'l' :: 's' :: 'e' :: rest) = some (.bool false, rest) := by
  simp [parseVal, listStartsWith, Char.reduceEq, reduceIte]

theorem parseVal_strOpen (tail : List Char) (fuel : Nat) :
    parseVal (fuel + 1) ('"' :: tail)
      = (parseStrBody fuel tail).map (fun p => (.str (String.mk p.1), p.2)) := by
  simp [parseVal, Char.reduceEq, reduceIte]

theorem parseVal_bracket (tail : List Char) (fuel : Nat) :
    parseVal (fuel + 1) ('[' :: tail)
      = (if (skipWs tail).head? = some ']' then some (.arr [], (skipWs tail).tail)
         else
           match parseVal fuel (skipWs tail) with
           | some (v, r) => parseArrTail fuel [v] (skipWs r)
           | none => none) := by
  simp [parseVal, Char.reduceEq, reduceIte]

theorem parseVal_brace (tail : List Char) (fuel : Nat) :
    parseVal (fuel + 1) ('{' :: tail)
      = (if (skipWs tail).head? = some '}' then some (.obj [], (skipWs tail).tail)
         else
           match parseMember fuel (skipWs tail) with
           | some (kv, r) => parseObjTail fuel [kv] (skipWs r)
           | none => none) := by
  simp [parseVal, Char.reduceEq, reduceIte]

theorem parseVal_numHead (c : Char) (tail : List Char) (fuel : Nat)
    (h1 : c ≠ '"') (h2 : c ≠ '[') (h3 : c ≠ '{') (h4 : c ≠ 't') (h5 : c ≠ 'f')
    (h6 : c ≠ 'n') :
    parseVal (fuel + 1) (c :: tail) = parseNum (c :: tail) := by
  have ht : listStartsWith ['t', 'r', 'u', 'e'] (c :: tail) = false := by
    simp only [listStartsWith, decide_eq_false (show ¬('t' = c) from fun h => h4 h.symm), Bool.false_and]
  have hf : listStartsWith ['f', 'a', 'l', 's', 'e'] (c :: tail) = false := by
    simp only [listStartsWith, decide_eq_false (show ¬('f' = c) from fun h => h5 h.symm), Bool.false_and]
  have hn : listStartsWith ['n', 'u', 'l', 'l'] (c :: tail) = false := by
    simp only [listStartsWith, decide_eq_false (show ¬('n' = c) from fun h => h6 h.symm), Bool.false_and]
  simp only [parseVal]
  rw [if_neg h1, if_neg h2, if_neg h3]
  simp only [ht, hf, hn, Bool.false_eq_true, if_false]

theorem skipWs_arrTail (ys : List Json) (r : List Char) :
    skipWs (arrTailChars ys ++ ']' :: r) = arrTailChars ys ++ ']' :: r := by
  cases ys with
  | nil => simp [arrTailChars, skipWs, List.dropWhile_cons, isJWs]
  | cons y ys => simp [arrTailChars, skipWs, List.dropWhile_cons, isJWs]

theorem skipWs_objTail (kvs : List (String × Json)) (r : List Char) :
    skipWs (objTailChars kvs ++ '}' :: r) = objTailChars kvs ++ '}' :: r := by
  cases kvs with
  | nil => simp [objTailChars, skipWs, List.dropWhile_cons, isJWs]
  | cons kv kvs => simp [objTailChars, skipWs, List.dropWhile_cons, isJWs]

theorem numSafe_arrTail (ys : List Json) (r : List Char) :
    numSafe (arrTailChars ys ++ ']' :: r) = true := by
  cases ys <;> rfl

theorem numSafe_objTail (kvs : List (String × Json)) (r : List Char) :
    numSafe (objTailChars kvs ++ '}' :: r) = true := by
  cases kvs <;> rfl

theorem string_mk_data (s : String) : String.mk s.data = s := by
  cases s
  rfl

theorem parseArrTail_chars (ys : List Json)
    (hall : ∀ y ∈ ys, ∀ (rest : List Char) (fuel : Nat), numSafe rest = true →
      (dumpsChars y).length + rest.length < fuel →
      parseVal fuel (dumpsChars y ++ rest) = some (y, rest)) :
    ∀ (acc : List Json) (r : List Char) (fl : Nat),
      (arrTailChars ys).length + r.length < fl →
      parseArrTail fl acc (arrTailChars ys ++ ']' :: r) = some (.arr (acc ++ ys), r) := by
  induction ys with
  | nil =>
    intro acc r fl hfl
    cases fl with
    | zero => exact absurd hfl (Nat.not_lt_zero _)
    | succ g =>
      simp [arrTailChars, parseArrTail]
  | cons y ys ihys =>
    intro acc r fl hfl
    cases fl with
    | zero => exact absurd hfl (Nat.not_lt_zero _)
    | succ g =>
      rw [show arrTailChars (y :: ys) = ',' :: ' ' :: (dumpsChars y ++ arrTailChars ys) from rfl]
        at hfl ⊢
      simp only [List.length_cons, List.length_append] at hfl
      simp only [List.cons_append, List.append_assoc]
      rw [parseArrTail]
      simp only [List.head?_cons, Option.some.injEq, Char.reduceEq, reduceIte, List.tail_cons]
      rw [show skipWs (' ' :: (dumpsChars y ++ (arrTailChars ys ++ ']' :: r)))
            = dumpsChars y ++ (arrTailChars ys ++ ']' :: r) from by
        rw [skipWs, List.dropWhile_cons]
        simp only [isJWs, decide_eq_true_eq]
        rw [if_pos (by norm_num)]
        exact skipWs_dumps y _]
      rw [hall y (List.mem_cons_self y ys) (arrTailChars ys ++ ']' :: r) g
        (numSafe_arrTail ys r)
        (by simp only [List.length_append, List.length_cons]; omega)]
      dsimp only
      rw [skipWs_arrTail]
      rw [ihys (fun z hz => hall z (List.mem_cons_of_mem y hz)) (acc ++ [y]) r g
        (by omega)]
      simp

theorem parseMember_mem (kv : String × Json)
    (hval : ∀ (rest : List Char) (fuel : Nat), numSafe rest = true →
      (dumpsChars kv.2).length + rest.length < fuel →
      parseVal fuel (dumpsChars kv.2 ++ rest) = some (kv.2, rest))
    (T : List Char) (g : Nat) (hT : numSafe T = true)
    (hg : (memChars kv).length + T.length < g) :
    parseMember g (memChars kv ++ T) = some (kv, T) := by
  cases g with
  | zero => exact absurd hg (Nat.not_lt_zero _)
  | succ g2 =>
    rw [show memChars kv = '"' :: (escStr kv.1.data ++ '"' :: ':' :: ' ' :: dumpsChars kv.2)
      from rfl] at hg ⊢
    simp only [List.length_cons, List.length_append] at hg
    simp only [List.cons_append, List.append_assoc, List.cons_append]
    rw [parseMember]
    simp only [List.head?_cons, Option.some.injEq, Char.reduceEq, reduceIte, List.tail_cons]
    rw [parseStrBody_escStr kv.1.data (':' :: ' ' :: (dumpsChars kv.2 ++ T)) g2
      (by omega)]
    dsimp only
    rw [show skipWs (':' :: ' ' :: (dumpsChars kv.2 ++ T)) = ':' :: ' ' :: (dumpsChars kv.2 ++ T)
      from by
        rw [skipWs, List.dropWhile_cons]
        simp [isJWs]]
    simp only [List.head?_cons, Option.some.injEq, Char.reduceEq, reduceIte, List.tail_cons]
    rw [show skipWs (' ' :: (dumpsChars kv.2 ++ T)) = dumpsChars kv.2 ++ T from by
      rw [skipWs, List.dropWhile_cons]
      simp only [isJWs, decide_eq_true_eq]
      rw [if_pos (by norm_num)]
      exact skipWs_dumps kv.2 _]
    rw [hval T g2 hT (by omega)]

theorem parseObjTail_chars (kvs : List (String × Json))
    (hall : ∀ kv ∈ kvs, ∀ (rest : List Char) (fuel : Nat), numSafe rest = true →
      (dumpsChars kv.2).length + rest.length < fuel →
      parseVal fuel (dumpsChars kv.2 ++ rest) = some (kv.2, rest)) :
    ∀ (acc : List (String × Json)) (r : List Char) (fl : Nat),
      (objTailChars kvs).length + r.length < fl →
      parseObjTail fl acc (objTailChars kvs ++ '}' :: r) = some (.obj (acc ++ kvs), r) := by
  induction kvs with
  | nil =>
    intro acc r fl hfl
    cases fl with
    | zero => exact absurd hfl (Nat.not_lt_zero _)
    | succ g =>
      simp [objTailChars, parseObjTail]
  | cons kv kvs ihkvs =>
    intro acc r fl hfl
    cases fl with
    | zero => exact absurd hfl (Nat.not_lt_zero _)
    | succ g =>
      rw [show objTailChars (kv :: kvs) = ',' :: ' ' :: (memChars kv ++ objTailChars kvs)
        from rfl] at hfl ⊢
      simp only [List.length_cons, List.length_append] at hfl
      simp only [List.cons_append, List.append_assoc]
      rw [parseObjTail]
      simp only [List.head?_cons, Option.some.injEq, Char.reduceEq, reduceIte, List.tail_cons]
      rw [show skipWs (' ' :: (memChars kv ++ (objTailChars kvs ++ '}' :: r)))
            = memChars kv ++ (objTailChars kvs ++ '}' :: r) from by
        rw [skipWs, List.dropWhile_cons]
        simp only [isJWs, decide_eq_true_eq]
        rw [if_pos (by norm_num)]
        rw [show memChars kv = '"' :: (escStr kv.1.data ++ '"' :: ':' :: ' ' :: dumpsChars kv.2)
          from rfl]
        simp [skipWs, List.dropWhile_cons, isJWs]]
      rw [parseMember_mem kv (hall kv (List.mem_cons_self kv kvs))
        (objTailChars kvs ++ '}' :: r) g (numSafe_objTail kvs r)
        (by simp only [List.length_append, List.length_cons]; omega)]
      dsimp only
      rw [skipWs_objTail]
      rw [ihkvs (fun z hz => hall z (List.mem_cons_of_mem kv hz)) (acc ++ [kv]) r g
        (by omega)]
      simp

theorem parseVal_dumps : ∀ (N : Nat) (v : Json), sizeOf v ≤ N →
    ∀ (rest : List Char) (fuel : Nat), numSafe rest = true →
      (dumpsChars v).length + rest.length < fuel →
      parseVal fuel (dumpsChars v ++ rest) = some (v, rest) := by
  intro N
  induction N with
  | zero =>
    intro v hv
    exfalso
    cases v <;> simp at hv
  | succ N ihN =>
    intro v hv rest fuel hsafe hfuel
    cases v with
    | null =>
      cases fuel with
      | zero => exact absurd hfuel (Nat.not_lt_zero _)
      | succ f =>
        rw [show dumpsChars .null = ['n', 'u', 'l', 'l'] from rfl]
        simp only [List.cons_append, List.nil_append]
        exact parseVal_nullLit rest f
    | bool b =>
      cases fuel with
      | zero => exact absurd hfuel (Nat.not_lt_zero _)
      | succ f =>
        cases b with
        | true =>
          rw [show dumpsChars (.bool true) = ['t', 'r', 'u', 'e'] from rfl]
          simp only [List.cons_append, List.nil_append]
          exact parseVal_trueLit rest f
        | false =>
          rw [show dumpsChars (.bool false) = ['f', 'a', 'l', 's', 'e'] from rfl]
          simp only [List.cons_append, List.nil_append]
          exact parseVal_falseLit rest f
    | num n =>
      cases fuel with
      | zero => exact absurd hfuel (Nat.not_lt_zero _)
      | succ f =>
        have hfacts : ∃ c0 cs0, intChars n = c0 :: cs0 ∧ c0 ≠ '"' ∧ c0 ≠ '[' ∧ c0 ≠ '{' ∧
            c0 ≠ 't' ∧ c0 ≠ 'f' ∧ c0 ≠ 'n' := by
          unfold intChars
          by_cases hn : n < 0
          · rw [if_pos hn]
            exact ⟨'-', _, rfl, by decide, by decide, by decide, by decide, by decide, by decide⟩
          · rw [if_neg hn]
            obtain ⟨c0, cs0, hcons⟩ := List.exists_cons_of_ne_nil (natChars_ne_nil n.toNat)
            have hc0 : c0 ∈ natChars n.toNat := by rw [hcons]; exact List.mem_cons_self _ _
            obtain ⟨d, rfl⟩ := natChars_mem_digit hc0
            have hd := digit_char_ne _ (digitCharFacts d).1
            exact ⟨_, cs0, hcons, hd.1, hd.2.1, hd.2.2.1, hd.2.2.2.1, hd.2.2.2.2.1,
              hd.2.2.2.2.2.1⟩
        obtain ⟨c0, cs0, hic, h1, h2, h3, h4, h5, h6⟩ := hfacts
        rw [show dumpsChars (.num n) = intChars n from rfl, hic]
        simp only [List.cons_append]
        rw [parseVal_numHead c0 (cs0 ++ rest) f h1 h2 h3 h4 h5 h6]
        rw [← List.cons_append, ← hic]
        exact parseNum_intChars n rest hsafe
    | str s =>
      cases fuel with
      | zero => exact absurd hfuel (Nat.not_lt_zero _)
      | succ f =>
        rw [show dumpsChars (.str s) = '"' :: (escStr s.data ++ ['"']) from rfl] at hfuel ⊢
        simp only [List.length_cons, List.length_append, List.length_singleton] at hfuel
        simp only [List.cons_append, List.append_assoc, List.singleton_append, List.nil_append]
        rw [parseVal_strOpen]
        rw [parseStrBody_escStr s.data rest f (by omega)]
        simp [string_mk_data]
    | arr xs =>
      cases fuel with
      | zero => exact absurd hfuel (Nat.not_lt_zero _)
      | succ f =>
        rw [show dumpsChars (.arr xs) = '[' :: (dumpsList xs ++ [']']) from rfl] at hfuel ⊢
        simp only [List.length_cons, List.length_append, List.length_singleton] at hfuel
        simp only [List.cons_append, List.append_assoc, List.singleton_append, List.nil_append]
        rw [parseVal_bracket]
        cases xs with
        | nil =>
          rw [show dumpsList [] = [] from rfl]
          simp only [List.nil_append]
          rw [show skipWs (']' :: rest) = ']' :: rest from by
            rw [skipWs, List.dropWhile_cons]
            simp [isJWs]]
          simp
        | cons x xs =>
          have hszx : sizeOf x ≤ N := by
            have h1 : sizeOf x < sizeOf (x :: xs) := List.sizeOf_lt_of_mem (List.mem_cons_self x xs)
            have h2 : sizeOf (Json.arr (x :: xs)) = 1 + sizeOf (x :: xs) := by simp
            omega
          have hszxs : ∀ y ∈ xs, sizeOf y ≤ N := by
            intro y hy
            have h1 : sizeOf y < sizeOf (x :: xs) :=
              List.sizeOf_lt_of_mem (List.mem_cons_of_mem x hy)
            have h2 : sizeOf (Json.arr (x :: xs)) = 1 + sizeOf (x :: xs) := by simp
            omega
          rw [dumpsList_cons] at hfuel ⊢
          simp only [List.length_append] at hfuel
          simp only [List.append_assoc]
          rw [skipWs_dumps x (arrTailChars xs ++ ']' :: rest)]
          obtain ⟨ch, r2, hch, hws, hbr, hbc⟩ := dumps_head_spec x
          rw [if_neg (by
            rw [hch]
            simp only [List.cons_append, List.head?_cons, Option.some.injEq]
            exact hbr)]
          rw [ihN x hszx (arrTailChars xs ++ ']' :: rest) f (numSafe_arrTail xs rest)
            (by simp only [List.length_append, List.length_cons]; omega)]
          dsimp only
          rw [skipWs_arrTail]
          rw [parseArrTail_chars xs (fun y hy => ihN y (hszxs y hy)) [x] rest f (by omega)]
          simp
    | obj kvs =>
      cases fuel with
      | zero => exact absurd hfuel (Nat.not_lt_zero _)
      | succ f =>
        rw [show dumpsChars (.obj kvs) = '{' :: (dumpsObj kvs ++ ['}']) from rfl] at hfuel ⊢
        simp only [List.length_cons, List.length_append, List.length_singleton] at hfuel
        simp only [List.cons_append, List.append_assoc, List.singleton_append, List.nil_append]
        rw [parseVal_brace]
        cases kvs with
        | nil =>
          rw [show dumpsObj [] = [] from rfl]
          simp only [List.nil_append]
          rw [show skipWs ('}' :: rest) = '}' :: rest from by
            rw [skipWs, List.dropWhile_cons]
            simp [isJWs]]
          simp
        | cons kv kvs =>
          have hszkv : sizeOf kv.2 ≤ N := by
            have h1 : sizeOf kv < sizeOf (kv :: kvs) :=
              List.sizeOf_lt_of_mem (List.mem_cons_self kv kvs)
            have h2 : sizeOf (Json.obj (kv :: kvs)) = 1 + sizeOf (kv :: kvs) := by simp
            have h3 : sizeOf kv.2 < sizeOf kv := by
              obtain ⟨a, b⟩ := kv
              simp only [Prod.mk.sizeOf_spec]
              omega
            omega
          have hszkvs : ∀ z ∈ kvs, sizeOf z.2 ≤ N := by
            intro z hz
            have h1 : sizeOf z < sizeOf (kv :: kvs) :=
              List.sizeOf_lt_of_mem (List.mem_cons_of_mem kv hz)
            have h2 : sizeOf (Json.obj (kv :: kvs)) = 1 + sizeOf (kv :: kvs) := by simp
            have h3 : sizeOf z.2 < sizeOf z := by
              obtain ⟨a, b⟩ := z
              simp only [Prod.mk.sizeOf_spec]
              omega
            omega
          rw [dumpsObj_cons] at hfuel ⊢
          simp only [List.length_append] at hfuel
          simp only [List.append_assoc]
          rw [show skipWs (memChars kv ++ (objTailChars kvs ++ '}' :: rest))
                = memChars kv ++ (objTailChars kvs ++ '}' :: rest) from by
            rw [show memChars kv
                = '"' :: (escStr kv.1.data ++ '"' :: ':' :: ' ' :: dumpsChars kv.2) from rfl]
            simp [skipWs, List.dropWhile_cons, isJWs]]
          rw [if_neg (by
            rw [show memChars kv
                = '"' :: (escStr kv.1.data ++ '"' :: ':' :: ' ' :: dumpsChars kv.2) from rfl]
            simp only [List.cons_append, List.head?_cons, Option.some.injEq]
            decide)]
          rw [parseMember_mem kv (fun r3 f3 hs3 hf3 => ihN kv.2 hszkv r3 f3 hs3 hf3)
            (objTailChars kvs ++ '}' :: rest) f (numSafe_objTail kvs rest)
            (by simp only [List.length_append, List.length_cons]; omega)]
          dsimp only
          rw [skipWs_objTail]
          rw [parseObjTail_chars kvs (fun z hz => ihN z.2 (hszkvs z hz)) [kv] rest f (by omega)]
          simp

theorem numSafe_nil : numSafe [] = true := rfl

theorem loads_dumps (v : Json) : loads (dumpsChars v) = some v := by
  unfold loads
  have h0 : skipWs (dumpsChars v) = dumpsChars v := by
    have h := skipWs_dumps v []
    simpa using h
  have hp := parseVal_dumps (sizeOf v) v le_rfl [] ((dumpsChars v).length + 1) numSafe_nil
    (by simp)
  rw [List.append_nil] at hp
  rw [h0]
  dsimp only
  rw [hp]
  rfl

/-- Does the frame pattern `~m~<digits>~m~` occur anywhere in the text? -/
def hasFrame : List Char → Bool
  | [] => false
  | c :: cs => (frameMatch (c :: cs)).isSome || hasFrame cs

theorem splitAux_noframe : ∀ (cs : List Char) (fuel : Nat), cs.length < fuel →
    hasFrame cs = false → splitAux fuel cs = (cs, []) := by
  intro cs
  induction cs with
  | nil =>
    intro fuel hf _
    cases fuel with
    | zero => exact absurd hf (Nat.not_lt_zero _)
    | succ f => rfl
  | cons c cs ih =>
    intro fuel hf hnf
    cases fuel with
    | zero => exact absurd hf (Nat.not_lt_zero _)
    | succ f =>
      rw [hasFrame, Bool.or_eq_false_iff] at hnf
      rw [splitAux]
      rw [show frameMatch (c :: cs) = none from by
        rcases h : frameMatch (c :: cs) with _ | t
        · rfl
        · rw [h] at hnf
          simp at hnf]
      rw [ih f (by simpa using hf) hnf.2]

theorem frameMatch_hdr (L : Nat) (payload : List Char) :
    frameMatch ('~' :: 'm' :: '~' :: (natChars L ++ '~' :: 'm' :: '~' :: payload))
      = some payload := by
  have hdig : ∀ c ∈ natChars L, isDigitChar c = true := by
    intro c hc
    obtain ⟨d, rfl⟩ := natChars_mem_digit hc
    exact (digitCharFacts d).1
  have hsplit := takeWhile_digits (natChars L) ('~' :: 'm' :: '~' :: payload) hdig rfl
  rw [frameMatch]
  rw [hsplit.1, hsplit.2]
  rw [if_neg (natChars_ne_nil L)]
  rfl

theorem splitSegs_frame (L : Nat) (payload : List Char) (hnf : hasFrame payload = false) :
    splitSegs ('~' :: 'm' :: '~' :: (natChars L ++ '~' :: 'm' :: '~' :: payload)) = [payload] := by
  unfold splitSegs
  rw [splitAux]
  rw [frameMatch_hdr L payload]
  dsimp only
  rw [splitAux_noframe payload _ (by simp; omega) hnf]

theorem classifySeg_encode (name : String) (params : List Json) :
    classifySeg (dumpsChars (.obj [("m", .str name), ("p", .arr params)]))
      = .ok (some (.event (.obj [("m", .str name), ("p", .arr params)])), none) := by
  unfold classifySeg
  rw [if_neg (by
    rw [show dumpsChars (.obj [("m", .str name), ("p", .arr params)])
        = '{' :: (dumpsObj [("m", .str name), ("p", .arr params)] ++ ['}']) from rfl]
    intro hEq
    have hh := congrArg List.head? hEq
    simp at hh)]
  rw [loads_dumps]
  dsimp only
  rw [show sessionIdIn (.obj [("m", .str name), ("p", .arr params)]) = some false from rfl]

theorem parse_message_encode (name : String) (params : List Json)
    (hnf : hasFrame (dumpsChars (.obj [("m", .str name), ("p", .arr params)])) = false) :
    parse_message (encodeMsg name params)
      = .ok ([.event (.obj [("m", .str name), ("p", .arr params)])], []) := by
  unfold parse_message
  have hdata : (encodeMsg name params).data
      = '~' :: 'm' :: '~' ::
          (natChars (dumpsChars (.obj [("m", .str name), ("p", .arr params)])).length
            ++ '~' :: 'm' :: '~' :: dumpsChars (.obj [("m", .str name), ("p", .arr params)])) := by
    show '~' :: 'm' :: '~' ::
        ((natChars (dumpsChars (.obj [("m", .str name), ("p", .arr params)])).length
            ++ ['~', 'm', '~']) ++ dumpsChars (.obj [("m", .str name), ("p", .arr params)]))
      = _
    rw [List.append_assoc]
    rfl
  rw [hdata]
  rw [if_neg (by simp)]
  rw [splitSegs_frame _ _ hnf]
  rw [parseLoop, classifySeg_encode]
  rfl

/-- Is the segment a ping (`startswith("~h~")`)? -/
def segIsPing (seg : List Char) : Bool := seg.take 3 = ['~', 'h', '~']

/-- Does the segment parse to a JSON value on which the `"session_id" in`
membership test raises `TypeError` (number, boolean or null)? -/
def segScalar (seg : List Char) : Bool :=
  !segIsPing seg &&
    (match loads seg with
     | some (.num _) => true
     | some (.bool _) => true
     | some .null => true
     | _ => false)

/-- The frame a surviving segment contributes, if any. -/
def segFrame (seg : List Char) : Option Payload :=
  if segIsPing seg then
    some (.ping ("~m~" ++ toString seg.length ++ "~m~" ++ String.mk seg))
  else
    match loads seg with
    | none => none
    | some parsed =>
      match sessionIdIn parsed with
      | some true => some (.session parsed)
      | some false => some (.event parsed)
      | none => none

/-- Is the segment dropped with a parse-failure observation? -/
def segDrops (seg : List Char) : Bool := !segIsPing seg && (loads seg).isNone

theorem classifySeg_cases (seg : List Char) :
    (segScalar seg = true ∧ classifySeg seg = .error ()) ∨
    (segScalar seg = false ∧ segDrops seg = true ∧ segFrame seg = none ∧
      classifySeg seg = .ok (none, some seg)) ∨
    (segScalar seg = false ∧ segDrops seg = false ∧
      ∃ f, segFrame seg = some f ∧ classifySeg seg = .ok (some f, none)) := by
  unfold classifySeg segScalar segDrops segFrame segIsPing
  by_cases hp : seg.take 3 = ['~', 'h', '~']
  · right; right
    simp [hp]
  · rcases hl : loads seg with _ | j
    · right; left
      simp [hp, hl]
    · rcases j with _ | b | n | s | xs | kvs
      · left
        simp [hp, hl, sessionIdIn]
      · left
        simp [hp, hl, sessionIdIn]
      · left
        simp [hp, hl, sessionIdIn]
      · right; right
        rcases hsub : sessionIdIn (.str s) with _ | b2
        · simp [sessionIdIn] at hsub
        · cases b2 <;> simp [hp, hl, hsub]
      · right; right
        rcases hsub : sessionIdIn (.arr xs) with _ | b2
        · simp [sessionIdIn] at hsub
        · cases b2 <;> simp [hp, hl, hsub]
      · right; right
        rcases hsub : sessionIdIn (.obj kvs) with _ | b2
        · simp [sessionIdIn] at hsub
        · cases b2 <;> simp [hp, hl, hsub]

theorem parseLoop_spec : ∀ (segs : List (List Char)) (frames : List Payload)
    (obs : List (List Char)),
    (parseLoop segs frames obs = .error () ↔ ∃ seg ∈ segs, segScalar seg = true) ∧
    (∀ res, parseLoop segs frames obs = .ok res →
      res.1 = frames ++ segs.filterMap segFrame ∧ res.2 = obs ++ segs.filter segDrops) := by
  intro segs
  induction segs with
  | nil =>
    intro frames obs
    constructor
    · simp [parseLoop]
    · intro res hres
      simp [parseLoop] at hres
      simp [← hres]
  | cons seg rest ih =>
    intro frames obs
    rcases classifySeg_cases seg with ⟨hs, hc⟩ | ⟨hs, hd, hf, hc⟩ | ⟨hs, hd, f, hf, hc⟩
    · constructor
      · rw [parseLoop, hc]
        simp [hs]
      · intro res hres
        rw [parseLoop, hc] at hres
        exact absurd hres (by simp)
    · constructor
      · rw [parseLoop, hc]
        dsimp only
        rw [(ih frames (obs ++ [seg])).1]
        constructor
        · intro ⟨z, hz, hzs⟩
          exact ⟨z, List.mem_cons_of_mem _ hz, hzs⟩
        · rintro ⟨z, hz, hzs⟩
          rcases List.mem_cons.mp hz with rfl | hz2
          · rw [hzs] at hs
            exact absurd hs (by simp)
          · exact ⟨z, hz2, hzs⟩
      · intro res hres
        rw [parseLoop, hc] at hres
        dsimp only at hres
        obtain ⟨h1, h2⟩ := (ih frames (obs ++ [seg])).2 res hres
        constructor
        · rw [h1, List.filterMap_cons, hf]
        · rw [h2, List.filter_cons, hd]
          simp
    · constructor
      · rw [parseLoop, hc]
        dsimp only
        rw [(ih (frames ++ [f]) obs).1]
        constructor
        · intro ⟨z, hz, hzs⟩
          exact ⟨z, List.mem_cons_of_mem _ hz, hzs⟩
        · rintro ⟨z, hz, hzs⟩
          rcases List.mem_cons.mp hz with rfl | hz2
          · rw [hzs] at hs
            exact absurd hs (by simp)
          · exact ⟨z, hz2, hzs⟩
      · intro res hres
        rw [parseLoop, hc] at hres
        dsimp only at hres
        obtain ⟨h1, h2⟩ := (ih (frames ++ [f]) obs).2 res hres
        constructor
        · rw [h1, List.filterMap_cons, hf]
          simp
        · rw [h2, List.filter_cons, hd]
          simp

/-- The pagination-continuation condition of `handle_event` (step 5 of the
spec's algorithm): the accumulated row count is a positive exact multiple
of the batch size, and the `amount` cap (with Python truthiness) does not
say we are done. -/
def pageDue (cfg : FetchCfg) (loaded : Nat) : Prop :=
  0 < loaded ∧ loaded % batchSize cfg.amount = 0 ∧
    (match cfg.amount with
     | none => true
     | some a => a = 0 || decide (loaded < a)) = true

instance (cfg : FetchCfg) (loaded : Nat) : Decidable (pageDue cfg loaded) := by
  unfold pageDue
  infer_instance

/-- `if amount: current_sym_candles = current_sym_candles[:amount]`. -/
def truncAcc (cfg : FetchCfg) (acc : List Json) : List Json :=
  if amountTruthy cfg.amount then pySliceTo acc ((cfg.amount.getD 0 : Nat) : Int) else acc

theorem handle_event_tu (cfg : FetchCfg) (st : FetchSt) (ev : TradingviewEvent)
    (h : ev.name = "timescale_update") :
    handle_event cfg st ev
      = match extractRows ev.params with
        | none => .raised st []
        | some rows =>
          .ok { st with current_sym_candles :=
                  (if batchSize cfg.amount < rows.length then
                     pySliceTo rows ((rows.length : Int) - (st.current_sym_candles.length : Int))
                   else rows) ++ st.current_sym_candles }
            [] false none := by
  unfold handle_event
  rw [if_pos h]

theorem handle_event_other (cfg : FetchCfg) (st : FetchSt) (ev : TradingviewEvent)
    (h1 : ev.name ≠ "timescale_update")
    (h2 : ¬(ev.name = "series_completed" ∨ ev.name = "symbol_error")) :
    handle_event cfg st ev = .ok st [] false none := by
  unfold handle_event
  rw [if_neg h1, if_neg h2]

theorem handle_event_page (cfg : FetchCfg) (st : FetchSt) (ev : TradingviewEvent)
    (h1 : ev.name ≠ "timescale_update")
    (h2 : ev.name = "series_completed" ∨ ev.name = "symbol_error")
    (h3 : pageDue cfg st.current_sym_candles.length) :
    handle_event cfg st ev
      = .ok st [("request_more_data",
          [.str cfg.chart_session, .str "sds_1", .num (batchSize cfg.amount : Int)])]
          false none := by
  unfold handle_event
  rw [if_neg h1, if_pos h2]
  dsimp only
  have h3e := h3
  unfold pageDue at h3e
  rw [if_pos h3e]

theorem handle_event_done (cfg : FetchCfg) (st : FetchSt) (ev : TradingviewEvent)
    (h1 : ev.name ≠ "timescale_update")
    (h2 : ev.name = "series_completed" ∨ ev.name = "symbol_error")
    (h3 : ¬ pageDue cfg st.current_sym_candles.length) :
    handle_event cfg st ev
      = (match (truncAcc cfg st.current_sym_candles).mapM rowToCandle with
         | none => .raised { st with current_sym_candles := truncAcc cfg st.current_sym_candles } []
         | some candles =>
           if st.current_sym_index + 1 < cfg.symbols.length then
             .ok { current_sym_index := st.current_sym_index + 1,
                   current_sym_candles := [],
                   all_candles := st.all_candles ++ [candles] }
               [("resolve_symbol",
                   [.str cfg.chart_session, .str ("sds_sym_" ++ toString (st.current_sym_index + 1)),
                    .str (symSpec (cfg.symbols.getD (st.current_sym_index + 1) ""))]),
                ("modify_series",
                   [.str cfg.chart_session, .str "sds_1", .str ("s" ++ toString (st.current_sym_index + 1)),
                    .str ("sds_sym_" ++ toString (st.current_sym_index + 1)), .str cfg.timeframe, .str ""])]
               false none
           else
             .ok { current_sym_index := st.current_sym_index,
                   current_sym_candles := truncAcc cfg st.current_sym_candles,
                   all_candles := st.all_candles ++ [candles] }
               [] true (some ((st.all_candles ++ [candles]).headD []))) := by
  unfold handle_event
  rw [if_neg h1, if_pos h2]
  dsimp only
  have h3e := h3
  unfold pageDue at h3e
  rw [if_neg h3e]
  rfl

/-- Reference extraction of "the candle list of the FIRST symbol": replay
only the symbol-0 phase of `handle_event` (same merge, same pagination
test, same truncation and conversion) and return the candle list produced
at the first successful full-load; later symbols never touch it. -/
def firstSymGo (cfg : FetchCfg) (acc : List Json) : List TradingviewEvent → Option (List Candle)
  | [] => none
  | ev :: evs =>
    if ev.name = "timescale_update" then
      match extractRows ev.params with
      | none => firstSymGo cfg acc evs
      | some rows =>
        firstSymGo cfg
          ((if batchSize cfg.amount < rows.length then
              pySliceTo rows ((rows.length : Int) - (acc.length : Int))
            else rows) ++ acc) evs
    else if ev.name = "series_completed" ∨ ev.name = "symbol_error" then
      if pageDue cfg acc.length then firstSymGo cfg acc evs
      else
        match (truncAcc cfg acc).mapM rowToCandle with
        | none => firstSymGo cfg (truncAcc cfg acc) evs
        | some candles => some candles
    else firstSymGo cfg acc evs

theorem runEvents_phase2 (cfg : FetchCfg) (c0 : List Candle) :
    ∀ (events : List TradingviewEvent) (st : FetchSt),
      st.all_candles.head? = some c0 →
      (runEvents cfg st events).removed = true →
      (runEvents cfg st events).resolved = some c0 := by
  intro events
  induction events with
  | nil =>
    intro st hhead hrem
    simp [runEvents] at hrem
  | cons ev evs ih =>
    intro st hhead hrem
    by_cases htu : ev.name = "timescale_update"
    · rw [runEvents, handle_event_tu cfg st ev htu] at hrem ⊢
      rcases hex : extractRows ev.params with _ | rows
      · rw [hex] at hrem
        dsimp only at hrem ⊢
        exact ih _ hhead hrem
      · rw [hex] at hrem
        dsimp only at hrem ⊢
        exact ih _ hhead hrem
    · by_cases hterm : ev.name = "series_completed" ∨ ev.name = "symbol_error"
      · by_cases hpd : pageDue cfg st.current_sym_candles.length
        · rw [runEvents, handle_event_page cfg st ev htu hterm hpd] at hrem ⊢
          dsimp only at hrem ⊢
          exact ih _ hhead hrem
        · rw [runEvents, handle_event_done cfg st ev htu hterm hpd] at hrem ⊢
          rcases hconv : (truncAcc cfg st.current_sym_candles).mapM rowToCandle with _ | candles
          · rw [hconv] at hrem
            dsimp only at hrem ⊢
            refine ih _ ?_ hrem
            simpa using hhead
          · rw [hconv] at hrem
            dsimp only at hrem ⊢
            by_cases hnext : st.current_sym_index + 1 < cfg.symbols.length
            · rw [if_pos hnext] at hrem ⊢
              dsimp only at hrem ⊢
              refine ih _ ?_ hrem
              rcases hall : st.all_candles with _ | ⟨c, cs⟩
              · rw [hall] at hhead
                simp at hhead
              · rw [hall] at hhead
                simp only [List.head?_cons, Option.some.injEq] at hhead
                simp [hall, hhead]
            · rw [if_neg hnext] at hrem ⊢
              dsimp only at hrem ⊢
              rcases hall : st.all_candles with _ | ⟨c, cs⟩
              · rw [hall] at hhead
                simp at hhead
              · rw [hall] at hhead
                simp only [List.head?_cons, Option.some.injEq] at hhead
                simp [hall, hhead]
      · rw [runEvents, handle_event_other cfg st ev htu hterm] at hrem ⊢
        dsimp only at hrem ⊢
        exact ih _ hhead hrem

theorem runEvents_phase1 (cfg : FetchCfg) :
    ∀ (events : List TradingviewEvent) (st : FetchSt),
      st.current_sym_index = 0 → st.all_candles = [] →
      (runEvents cfg st events).removed = true →
      (runEvents cfg st events).resolved = firstSymGo cfg st.current_sym_candles events := by
  intro events
  induction events with
  | nil =>
    intro st h0 hall hrem
    simp [runEvents] at hrem
  | cons ev evs ih =>
    intro st h0 hall hrem
    by_cases htu : ev.name = "timescale_update"
    · rw [runEvents, handle_event_tu cfg st ev htu] at hrem ⊢
      rw [firstSymGo, if_pos htu]
      rcases hex : extractRows ev.params with _ | rows
      · rw [hex] at hrem
        dsimp only at hrem ⊢
        exact ih st h0 hall hrem
      · rw [hex] at hrem
        dsimp only at hrem ⊢
        exact ih _ h0 hall hrem
    · by_cases hterm : ev.name = "series_completed" ∨ ev.name = "symbol_error"
      · rw [firstSymGo, if_neg htu, if_pos hterm]
        by_cases hpd : pageDue cfg st.current_sym_candles.length
        · rw [runEvents, handle_event_page cfg st ev htu hterm hpd] at hrem ⊢
          rw [if_pos hpd]
          dsimp only at hrem ⊢
          exact ih st h0 hall hrem
        · rw [runEvents, handle_event_done cfg st ev htu hterm hpd] at hrem ⊢
          rw [if_neg hpd]
          rcases hconv : (truncAcc cfg st.current_sym_candles).mapM rowToCandle with _ | candles
          · rw [hconv] at hrem
            dsimp only at hrem ⊢
            refine ih _ ?_ ?_ hrem <;> simp [h0, hall]
          · rw [hconv] at hrem
            dsimp only at hrem ⊢
            by_cases hnext : st.current_sym_index + 1 < cfg.symbols.length
            · rw [if_pos hnext] at hrem ⊢
              dsimp only at hrem ⊢
              refine runEvents_phase2 cfg candles evs _ ?_ hrem
              simp [hall]
            · rw [if_neg hnext] at hrem ⊢
              dsimp only at hrem ⊢
              simp [hall]
      · rw [runEvents, handle_event_other cfg st ev htu hterm] at hrem ⊢
        rw [firstSymGo, if_neg htu, if_neg hterm]
        dsimp only at hrem ⊢
        exact ih st h0 hall hrem

theorem handle_event_remove_iff (cfg : FetchCfg) (st : FetchSt) (ev : TradingviewEvent) :
    (handle_event cfg st ev).isRemove = true ↔
      ((ev.name = "series_completed" ∨ ev.name = "symbol_error") ∧
        ¬ pageDue cfg st.current_sym_candles.length ∧
        (truncAcc cfg st.current_sym_candles).mapM rowToCandle ≠ none ∧
        cfg.symbols.length ≤ st.current_sym_index + 1) := by
  by_cases htu : ev.name = "timescale_update"
  · rw [handle_event_tu cfg st ev htu]
    constructor
    · intro hrem
      exfalso
      rcases hex : extractRows ev.params with _ | rows <;> rw [hex] at hrem <;> simp [StepRes.isRemove] at hrem
    · rintro ⟨h2, _⟩
      exfalso
      rw [htu] at h2
      rcases h2 with h2 | h2 <;> exact absurd h2 (by decide)
  · by_cases hterm : ev.name = "series_completed" ∨ ev.name = "symbol_error"
    · by_cases hpd : pageDue cfg st.current_sym_candles.length
      · rw [handle_event_page cfg st ev htu hterm hpd]
        simp [StepRes.isRemove, hterm, hpd]
      · rw [handle_event_done cfg st ev htu hterm hpd]
        rcases hconv : (truncAcc cfg st.current_sym_candles).mapM rowToCandle with _ | candles
        · simp [StepRes.isRemove, hconv]
        · dsimp only
          by_cases hnext : st.current_sym_index + 1 < cfg.symbols.length
          · rw [if_pos hnext]
            simp [StepRes.isRemove, hterm, hpd, hconv]
            omega
          · rw [if_neg hnext]
            simp [StepRes.isRemove, hterm, hpd, hconv]
            omega
    · rw [handle_event_other cfg st ev htu hterm]
      simp [StepRes.isRemove, hterm]

/-- C10: calling `get_candles` with an empty symbol list immediately
returns the empty candle sequence, without registering an event handler
and without sending any message (the `engaged` branch, which registers the
handler and sends `chart_create_session`/`resolve_symbol`/`create_series`,
is not taken). -/
theorem c10_empty_symbols (amount : Option Nat) (timeframe chart_session : String) :
    get_candles_start [] amount timeframe chart_session = .immediate [] := rfl

/-- C6 counterexample: the source guards `send` with `if not self.websocket`,
not with the `Connected` state.  After the handshake and a `close()` the
client is not in the `Connected` state (`connected = False`), yet `send`
does not raise `NotConnected` — it queues the framed write; likewise during
the handshake (socket open, `connected` still `False`) `send` succeeds,
which `connect` itself relies on to send `set_auth_token`.  This refutes
"send fails with NotConnected iff the connection is not Connected". -/
theorem c6_counterexample :
    (ClientConn.closeConn (ClientConn.onSession (ClientConn.wsOpen ClientConn.init))).connected
        = false
    ∧ sendMsg (ClientConn.closeConn (ClientConn.onSession (ClientConn.wsOpen ClientConn.init)))
        "quote_create_session" [] = .ok (encodeMsg "quote_create_session" [])
    ∧ (ClientConn.wsOpen ClientConn.init).connected = false
    ∧ sendMsg (ClientConn.wsOpen ClientConn.init) "set_auth_token" []
        = .ok (encodeMsg "set_auth_token" []) :=
  ⟨rfl, rfl, rfl, rfl⟩

/-- C6 amended: `send(messageName, params)` raises
`RuntimeError("Not connected to TradingView")` iff `self.websocket` has
never been opened; whether the handshake completed or `close()` ran
(`self.connected`) does not affect the guard — the websocket attribute keeps
holding the (possibly closed) socket object, which stays truthy. -/
theorem c6_amended (st : ClientConn) (name : String) (params : List Json) :
    sendMsg st name params = .error "Not connected to TradingView" ↔ st.websocket = false := by
  unfold sendMsg
  cases st.websocket <;> simp

/-- C8: a handler that raises during `_notify_subscribers` is caught: it
is still reported among the faults, it is not removed from the registry,
and every registered handler (including the others) is still invoked in
this publish; the publish call itself returns normally. -/
theorem c8_handler_fault_isolated (β : Nat → HRes) (subs : List Nat) (h : Nat)
    (hmem : h ∈ subs) (hexn : β h = .exn) :
    (notifySubscribers β subs).invoked = subs
    ∧ h ∈ (notifySubscribers β subs).after
    ∧ h ∈ (notifySubscribers β subs).faults
    ∧ h ∉ (notifySubscribers β subs).removed := by
  have hinv := notifyLoop_invoked β subs
  have hrem : h ∉ (notifyLoop β subs).2.1 := by
    intro hc
    have hb := (notifyLoop_removed_ret β subs h hc).1
    rw [hexn] at hb
    exact absurd hb (by simp)
  refine ⟨hinv, ?_, notifyLoop_faults β subs h hmem hexn, hrem⟩
  show h ∈ subs.filter (fun x => !(notifyLoop β subs).2.1.contains x)
  rw [List.mem_filter]
  refine ⟨hmem, ?_⟩
  simpa using hrem

/-- C8 witness: concrete registry `[0, 1, 2]` where handler `1` raises. -/
theorem c8_witness :
    (notifySubscribers (fun x => if x = 1 then .exn else .ret false) [0, 1, 2]).invoked = [0, 1, 2]
    ∧ 1 ∈ (notifySubscribers (fun x => if x = 1 then .exn else .ret false) [0, 1, 2]).after
    ∧ 1 ∈ (notifySubscribers (fun x => if x = 1 then .exn else .ret false) [0, 1, 2]).faults
    ∧ 1 ∉ (notifySubscribers (fun x => if x = 1 then .exn else .ret false) [0, 1, 2]).removed :=
  c8_handler_fault_isolated (fun x => if x = 1 then .exn else .ret false) [0, 1, 2] 1
    (by decide) rfl

/-- C9 counterexample: `self.subscribers` is a Python `set`, whose
iteration order is unspecified and in CPython depends on the handlers'
hashes (their addresses), not on registration order.  The registry state
`[1, 0]` — a permutation of the handlers registered in order `0` then `1`
— is therefore a possible set state, and `_notify_subscribers` then
invokes the handlers in the order `[1, 0]`, not the registration order
`[0, 1]`.  This refutes "handlers are invoked in their registration
order". -/
theorem c9_counterexample :
    List.Perm [1, 0] [0, 1]
    ∧ (notifySubscribers (fun _ => .ret false) [1, 0]).invoked = [1, 0]
    ∧ [1, 0] ≠ ([0, 1] : List Nat) :=
  ⟨by decide, rfl, by decide⟩

/-- C9 amended: for every publish, `_notify_subscribers` invokes exactly
the currently registered handlers, each exactly once, in the registry's
(unspecified) iteration order; handlers returning the remove-me value are
discarded only after the loop, so an in-publish removal never skips and
never double-invokes a handler of the same publish — it only takes effect
for later publishes.  (No handler of this code base unsubscribes another
during a publish; mutating the set mid-iteration would raise in Python and
is outside this model.) -/
theorem c9_amended (β : Nat → HRes) (subs : List Nat) (hnd : subs.Nodup) :
    (notifySubscribers β subs).invoked = subs
    ∧ (notifySubscribers β subs).invoked.Nodup
    ∧ (∀ h ∈ subs, h ∈ (notifySubscribers β subs).invoked)
    ∧ (notifySubscribers β subs).after
        = subs.filter (fun h => !(notifySubscribers β subs).removed.contains h) := by
  have hinv := notifyLoop_invoked β subs
  refine ⟨hinv, ?_, ?_, rfl⟩
  · show (notifyLoop β subs).1.Nodup
    rw [hinv]
    exact hnd
  · intro h hh
    show h ∈ (notifyLoop β subs).1
    rw [hinv]
    exact hh

/-- C9 witness: three handlers, the middle one removing itself. -/
theorem c9_witness :
    (notifySubscribers (fun x => if x = 1 then .ret true else .ret false) [0, 1, 2]).invoked
        = [0, 1, 2]
    ∧ (notifySubscribers (fun x => if x = 1 then .ret true else .ret false) [0, 1, 2]).invoked.Nodup
    ∧ (∀ h ∈ [0, 1, 2],
        h ∈ (notifySubscribers (fun x => if x = 1 then .ret true else .ret false) [0, 1, 2]).invoked)
    ∧ (notifySubscribers (fun x => if x = 1 then .ret true else .ret false) [0, 1, 2]).after
        = [0, 1, 2].filter
            (fun h => !(notifySubscribers (fun x => if x = 1 then .ret true else .ret false)
                [0, 1, 2]).removed.contains h) :=
  c9_amended (fun x => if x = 1 then .ret true else .ret false) [0, 1, 2] (by decide)

theorem extractRows_mkTU (rows : List Json) :
    extractRows (mkTimescaleUpdate rows).params = some rows := rfl

theorem mapM_option_length {α β : Type} (f : α → Option β) :
    ∀ (l : List α) (r : List β), l.mapM f = some r → r.length = l.length := by
  intro l
  induction l with
  | nil =>
    intro r hr
    rw [List.mapM_nil] at hr
    cases hr
    rfl
  | cons a l ih =>
    intro r hr
    rw [List.mapM_cons] at hr
    rcases hfa : f a with _ | b
    · rw [hfa] at hr
      simp at hr
    · rw [hfa] at hr
      rcases hfl : l.mapM f with _ | bs
      · rw [hfl] at hr
        simp at hr
      · rw [hfl] at hr
        simp only [Option.bind_eq_bind, Option.some_bind, Option.pure_def, Option.some.injEq] at hr
        subst hr
        simp [ih bs hfl]

theorem truncAcc_some (cfg : FetchCfg) (a : Nat) (ha : cfg.amount = some a) (hapos : 0 < a)
    (acc : List Json) :
    truncAcc cfg acc = acc.take a := by
  unfold truncAcc amountTruthy
  rw [ha]
  dsimp only
  rw [if_pos (by simpa using Nat.pos_iff_ne_zero.mp hapos)]
  unfold pySliceTo
  rw [if_pos (by positivity)]
  simp

/-- C1 counterexample: `symbols = ["A"]`, `amount = 10` (so `batchSize =
10`); the first `timescale_update` delivers rows `[10..1]`, the second
redelivers rows `[12..3]` — the spec's own pagination-dedup example.
Because the handler only trims `if len(new_candles) > batch_size` and here
`len = 10 ≤ 10`, no trim happens and rows `10..3` end up in the
accumulator twice, refuting "the merged accumulator contains each logical
row exactly once". -/
theorem c1_counterexample :
    ¬ ((runEvents { symbols := ["A"], amount := some 10, timeframe := "60", chart_session := "cs" }
          initFetchSt
          [mkTimescaleUpdate ([10, 9, 8, 7, 6, 5, 4, 3, 2, 1].map Json.num),
           mkTimescaleUpdate
             ([12, 11, 10, 9, 8, 7, 6, 5, 4, 3].map Json.num)]).st.current_sym_candles.Nodup) := by
  decide

/-- C1 amended: the handler trims only when the delivered row count
exceeds `batchSize`, and the trim keeps the first `len(new) − len(acc)`
rows.  Hence deduplication is guaranteed only for the server quirk the
code anticipates: when an oversized batch consists of fresh rows followed
by exactly the current accumulator, the handler prepends exactly the fresh
rows, and (fresh rows being new and duplicate-free) the accumulator then
holds each logical row exactly once, in reverse-chronological delivery
order. -/
theorem c1_trim_dedup (cfg : FetchCfg) (st : FetchSt) (fresh : List Json)
    (hover : batchSize cfg.amount < (fresh ++ st.current_sym_candles).length)
    (hnf : fresh.Nodup) (hna : st.current_sym_candles.Nodup)
    (hdisj : ∀ x ∈ fresh, x ∉ st.current_sym_candles) :
    handle_event cfg st (mkTimescaleUpdate (fresh ++ st.current_sym_candles))
      = .ok { current_sym_index := st.current_sym_index,
              current_sym_candles := fresh ++ st.current_sym_candles,
              all_candles := st.all_candles } [] false none
    ∧ (fresh ++ st.current_sym_candles).Nodup := by
  constructor
  · rw [handle_event_tu _ _ _ rfl, extractRows_mkTU]
    dsimp only
    rw [if_pos hover]
    have hslice : pySliceTo (fresh ++ st.current_sym_candles)
        (((fresh ++ st.current_sym_candles).length : Int)
          - (st.current_sym_candles.length : Int)) = fresh := by
      unfold pySliceTo
      rw [if_pos (by simp)]
      rw [show ((((fresh ++ st.current_sym_candles).length : Int)
          - (st.current_sym_candles.length : Int)).toNat) = fresh.length from by
        simp [List.length_append]]
      exact List.take_left fresh st.current_sym_candles
    rw [hslice]
  · rw [List.nodup_append]
    exact ⟨hnf, hna, fun x hx => hdisj x hx⟩

/-- C1 witness: `batchSize = 2`, accumulator `[2, 1]`, oversized batch
`[3] ++ [2, 1]` (one fresh row plus the full accumulator). -/
theorem c1_witness :
    handle_event { symbols := ["A"], amount := some 2, timeframe := "60", chart_session := "cs" }
        { current_sym_index := 0, current_sym_candles := [Json.num 2, Json.num 1],
          all_candles := [] }
        (mkTimescaleUpdate ([Json.num 3] ++ [Json.num 2, Json.num 1]))
      = .ok { current_sym_index := 0,
              current_sym_candles := [Json.num 3] ++ [Json.num 2, Json.num 1],
              all_candles := [] } [] false none
    ∧ ([Json.num 3] ++ [Json.num 2, Json.num 1]).Nodup :=
  c1_trim_dedup _ _ [Json.num 3] (by decide) (by decide) (by decide) (by decide)

/-- C5 counterexample: `amount = 3` (so `batchSize = 3`), but only 2 rows
were accumulated when `series_completed` arrived (short history).  The
symbol is fully loaded (2 is not a positive multiple of 3), the
accumulator is "truncated" by `[:3]`, and the final candle sequence has 2
entries — not "exactly amount rows" as claimed. -/
theorem c5_counterexample :
    ((runEvents { symbols := ["A"], amount := some 3, timeframe := "60", chart_session := "cs" }
        initFetchSt
        [mkTimescaleUpdate [mkRow 2 1 1 1 1 1, mkRow 1 1 1 1 1 1],
         { name := "series_completed", params := [] }]).resolved.map List.length = some 2)
    ∧ (2 : Nat) ≠ 3 := by
  constructor
  · decide
  · decide

/-- C5 amended: with a positive `amount` cap, when the current symbol is
considered fully loaded the accumulator is truncated to the first
`amount` rows — the `amount` most recent ones, the front of the
reverse-chronological accumulator — so the produced candle list has
`min amount loaded` entries, and exactly `amount` entries whenever at
least `amount` rows had been accumulated. -/
theorem c5_amount_truncation (cfg : FetchCfg) (st : FetchSt) (ev : TradingviewEvent)
    (a : Nat) (ha : cfg.amount = some a) (hapos : 0 < a)
    (hev : ev.name = "series_completed" ∨ ev.name = "symbol_error")
    (hnp : ¬ pageDue cfg st.current_sym_candles.length)
    (candles : List Candle)
    (hconv : (st.current_sym_candles.take a).mapM rowToCandle = some candles) :
    (handle_event cfg st ev).stOut.all_candles = st.all_candles ++ [candles]
    ∧ candles.length = min a st.current_sym_candles.length
    ∧ (a ≤ st.current_sym_candles.length → candles.length = a) := by
  have htu : ev.name ≠ "timescale_update" := by
    rcases hev with h | h <;> rw [h] <;> decide
  have hlen : candles.length = min a st.current_sym_candles.length := by
    rw [mapM_option_length rowToCandle _ _ hconv, List.length_take]
  refine ⟨?_, hlen, fun hle => by rw [hlen]; omega⟩
  rw [handle_event_done cfg st ev htu hev hnp]
  rw [truncAcc_some cfg a ha hapos]
  rw [hconv]
  dsimp only
  by_cases hnext : st.current_sym_index + 1 < cfg.symbols.length
  · rw [if_pos hnext]
    rfl
  · rw [if_neg hnext]
    rfl

/-- C5 witness: `amount = 3` with 5 accumulated rows: the final list has
exactly the 3 most recent entries (the spec's own example). -/
theorem c5_witness :
    (handle_event { symbols := ["A"], amount := some 3, timeframe := "60", chart_session := "cs" }
        { current_sym_index := 0,
          current_sym_candles :=
            [mkRow 5 1 1 1 1 1, mkRow 4 1 1 1 1 1, mkRow 3 1 1 1 1 1,
             mkRow 2 1 1 1 1 1, mkRow 1 1 1 1 1 1],
          all_candles := [] }
        { name := "series_completed", params := [] }).stOut.all_candles
      = [] ++ [[{ timestamp := .num 5, open_price := .num 1, high := .num 1, low := .num 1,
                  close := .num 1, volume := .num 1 },
                { timestamp := .num 4, open_price := .num 1, high := .num 1, low := .num 1,
                  close := .num 1, volume := .num 1 },
                { timestamp := .num 3, open_price := .num 1, high := .num 1, low := .num 1,
                  close := .num 1, volume := .num 1 }]]
    ∧ ([{ timestamp := Json.num 5, open_price := .num 1, high := .num 1, low := .num 1,
          close := .num 1, volume := .num 1 },
        { timestamp := .num 4, open_price := .num 1, high := .num 1, low := .num 1,
          close := .num 1, volume := .num 1 },
        { timestamp := .num 3, open_price := .num 1, high := .num 1, low := .num 1,
          close := .num 1, volume := .num 1 }] : List Candle).length
        = min 3 ([mkRow 5 1 1 1 1 1, mkRow 4 1 1 1 1 1, mkRow 3 1 1 1 1 1,
             mkRow 2 1 1 1 1 1, mkRow 1 1 1 1 1 1] : List Json).length
    ∧ (3 ≤ ([mkRow 5 1 1 1 1 1, mkRow 4 1 1 1 1 1, mkRow 3 1 1 1 1 1,
             mkRow 2 1 1 1 1 1, mkRow 1 1 1 1 1 1] : List Json).length →
        ([{ timestamp := Json.num 5, open_price := .num 1, high := .num 1, low := .num 1,
            close := .num 1, volume := .num 1 },
          { timestamp := .num 4, open_price := .num 1, high := .num 1, low := .num 1,
            close := .num 1, volume := .num 1 },
          { timestamp := .num 3, open_price := .num 1, high := .num 1, low := .num 1,
            close := .num 1, volume := .num 1 }] : List Candle).length = 3) :=
  c5_amount_truncation _ _ _ 3 rfl (by decide) (Or.inl rfl) (by decide) _ (by decide)

/-- C3: on a `series_completed` or `symbol_error` event (with `amount`
absent or positive, as the API documents), the handler sends
`request_more_data [chart_session, "sds_1", batch_size]` and stays
registered if and only if the accumulated row count is positive, an exact
multiple of `batchSize`, and either no `amount` cap was given or fewer
than `amount` rows have been accumulated; otherwise the current symbol is
treated as fully loaded (and the messages sent, if any, are the next
symbol's `resolve_symbol`/`modify_series` pair — never
`request_more_data`). -/
theorem c3_request_more_iff (cfg : FetchCfg) (st : FetchSt) (ev : TradingviewEvent)
    (hamt : cfg.amount = none ∨ ∃ a, cfg.amount = some a ∧ 0 < a)
    (hev : ev.name = "series_completed" ∨ ev.name = "symbol_error") :
    ((handle_event cfg st ev).sendsOut
        = [("request_more_data",
            [.str cfg.chart_session, .str "sds_1", .num (batchSize cfg.amount : Int)])]
      ∧ (handle_event cfg st ev).isRemove = false)
    ↔ (0 < st.current_sym_candles.length
        ∧ st.current_sym_candles.length % batchSize cfg.amount = 0
        ∧ (cfg.amount = none
            ∨ ∃ a, cfg.amount = some a ∧ st.current_sym_candles.length < a)) := by
  have htu : ev.name ≠ "timescale_update" := by
    rcases hev with h | h <;> rw [h] <;> decide
  by_cases hpd : pageDue cfg st.current_sym_candles.length
  · rw [handle_event_page cfg st ev htu hev hpd]
    obtain ⟨h1, h2, h3⟩ := hpd
    constructor
    · intro _
      refine ⟨h1, h2, ?_⟩
      rcases hamt with hnone | ⟨a, heq, hapos⟩
      · exact Or.inl hnone
      · rw [heq] at h3
        simp only [Bool.or_eq_true, decide_eq_true_eq] at h3
        rcases h3 with h3 | h3
        · omega
        · exact Or.inr ⟨a, heq, h3⟩
    · intro _
      exact ⟨rfl, rfl⟩
  · rw [handle_event_done cfg st ev htu hev hpd]
    constructor
    · intro ⟨hsend, _⟩
      exfalso
      rcases hconv : (truncAcc cfg st.current_sym_candles).mapM rowToCandle with _ | candles
      · rw [hconv] at hsend
        simp [StepRes.sendsOut] at hsend
      · rw [hconv] at hsend
        dsimp only at hsend
        by_cases hnext : st.current_sym_index + 1 < cfg.symbols.length
        · rw [if_pos hnext] at hsend
          simp [StepRes.sendsOut] at hsend
        · rw [if_neg hnext] at hsend
          simp [StepRes.sendsOut] at hsend
    · rintro ⟨h1, h2, h3⟩
      exfalso
      apply hpd
      refine ⟨h1, h2, ?_⟩
      rcases h3 with hnone | ⟨a, heq, hlt⟩
      · rw [hnone]
      · rw [heq]
        simp [hlt]

/-- C3 witness: `amount = None` (so `batchSize = 5000`) with exactly 5000
accumulated rows: the continuation condition holds and exactly the
`request_more_data` message is sent with the handler kept. -/
theorem c3_witness :
    (handle_event { symbols := ["A"], amount := none, timeframe := "60", chart_session := "cs" }
        { current_sym_index := 0, current_sym_candles := List.replicate 5000 (Json.num 0),
          all_candles := [] }
        { name := "series_completed", params := [] }).sendsOut
      = [("request_more_data", [.str "cs", .str "sds_1", .num (5000 : Int)])]
    ∧ (handle_event { symbols := ["A"], amount := none, timeframe := "60", chart_session := "cs" }
        { current_sym_index := 0, current_sym_candles := List.replicate 5000 (Json.num 0),
          all_candles := [] }
        { name := "series_completed", params := [] }).isRemove = false := by
  have h := c3_request_more_iff
    { symbols := ["A"], amount := none, timeframe := "60", chart_session := "cs" }
    { current_sym_index := 0, current_sym_candles := List.replicate 5000 (Json.num 0),
      all_candles := [] }
    { name := "series_completed", params := [] }
    (Or.inl rfl) (Or.inl rfl)
  have hlen : (List.replicate 5000 (Json.num 0)).length = 5000 := List.length_replicate _ _
  refine h.mpr ⟨?_, ?_, Or.inl rfl⟩
  · rw [hlen]
    decide
  · rw [hlen]
    decide

/-- C4: for a non-empty symbol list, the `handle_event` closure returns
the remove-me value exactly at a `series_completed`/`symbol_error` step
with no further page due, a successful candle conversion, and the current
symbol index at the last symbol — and at no other step; and whenever a run
of published events ends in that removal, the value resolved into the
pending future is the candle list of the FIRST symbol (`firstSymGo`
replays only the symbol-0 phase and stops at its first full load, so its
value cannot involve any later symbol's rows). -/
theorem c4_first_symbol_resolution (cfg : FetchCfg) (_hsym : cfg.symbols ≠ []) :
    (∀ (st : FetchSt) (ev : TradingviewEvent),
      (handle_event cfg st ev).isRemove = true ↔
        ((ev.name = "series_completed" ∨ ev.name = "symbol_error") ∧
          ¬ pageDue cfg st.current_sym_candles.length ∧
          (truncAcc cfg st.current_sym_candles).mapM rowToCandle ≠ none ∧
          cfg.symbols.length ≤ st.current_sym_index + 1))
    ∧ (∀ events : List TradingviewEvent,
        (runEvents cfg initFetchSt events).removed = true →
        (runEvents cfg initFetchSt events).resolved = firstSymGo cfg [] events) :=
  ⟨fun st ev => handle_event_remove_iff cfg st ev,
   fun events hrem => runEvents_phase1 cfg events initFetchSt rfl rfl hrem⟩

/-- C4 witness: two symbols; symbol A completes with 2 rows, then B
completes; the run removes the handler and resolves with A's candles, as
`firstSymGo` computes them. -/
theorem c4_witness :
    (runEvents { symbols := ["A", "B"], amount := none, timeframe := "60", chart_session := "cs" }
        initFetchSt
        [mkTimescaleUpdate [mkRow 2 1 1 1 1 1, mkRow 1 1 1 1 1 1],
         { name := "series_completed", params := [] },
         mkTimescaleUpdate [mkRow 9 9 9 9 9 9],
         { name := "symbol_error", params := [] }]).resolved
      = firstSymGo { symbols := ["A", "B"], amount := none, timeframe := "60", chart_session := "cs" }
          []
          [mkTimescaleUpdate [mkRow 2 1 1 1 1 1, mkRow 1 1 1 1 1 1],
           { name := "series_completed", params := [] },
           mkTimescaleUpdate [mkRow 9 9 9 9 9 9],
           { name := "symbol_error", params := [] }] :=
  (c4_first_symbol_resolution _ (by decide)).2 _ (by decide)

/-- C2 counterexample: the parameter string `"~m~1~m~a"` is serialized
verbatim into the JSON payload, where it matches the frame-split pattern
`~m~\d+~m~`; `_parse_message` therefore splits the single frame's payload
into two segments, both of which fail JSON parsing, so decoding
`encode("x", ["~m~1~m~a"])` yields zero frames (and two parse-error
observations) rather than the claimed single Event frame with deep-equal
parameters. -/
theorem c2_counterexample :
    parse_message (encodeMsg "x" [.str "~m~1~m~a"])
      = .ok ([], ["\x7b\"m\": \"x\", \"p\": [\"".data, "a\"]\x7d".data]) := by
  rfl

/-- C2 amended: for every message name and parameter sequence whose
serialized payload `json.dumps({"m": name, "p": params})` contains no
occurrence of the frame pattern `~m~<digits>~m~`, decoding the frame
produced by `send`'s framing yields exactly one Event frame with that name
and deep-equal parameters (and no parse-error observations). -/
theorem c2_roundtrip (name : String) (params : List Json)
    (hnf : hasFrame (dumpsChars (.obj [("m", .str name), ("p", .arr params)])) = false) :
    parse_message (encodeMsg name params)
      = .ok ([.event (.obj [("m", .str name), ("p", .arr params)])], []) :=
  parse_message_encode name params hnf

/-- C2 witness: a concrete frame round trip. -/
theorem c2_witness :
    hasFrame (dumpsChars (.obj [("m", .str "test"), ("p", .arr [.num 1, .str "a"])])) = false
    ∧ parse_message (encodeMsg "test" [.num 1, .str "a"])
        = .ok ([.event (.obj [("m", .str "test"), ("p", .arr [.num 1, .str "a"])])], []) :=
  ⟨by decide, c2_roundtrip "test" [.num 1, .str "a"] (by decide)⟩

/-- C7 counterexample: in `~m~7~m~notjson~m~1~m~5` the segment `notjson`
fails JSON parsing and is dropped, but the remaining segment `5` parses to
the integer `5`, on which `"session_id" in parsed` raises an uncaught
`TypeError`: the whole decode aborts, so the remaining segments of the
input are NOT all still decoded, refuting the claim. -/
theorem c7_counterexample :
    splitSegs ("~m~7~m~notjson~m~1~m~5".data) = ["notjson".data, "5".data]
    ∧ loads ("notjson".data) = none
    ∧ parse_message "~m~7~m~notjson~m~1~m~5" = .error () :=
  ⟨rfl, rfl, rfl⟩

/-- C7 amended: a segment that fails JSON parsing is dropped with exactly
one parse-error observation and decoding continues — the decode aborts
(with an uncaught `TypeError` from the session-membership test) if and
only if some segment parses successfully to a JSON number, boolean or
null; when no segment does, the decode returns, its frames are exactly
the classified surviving segments in order, and its observations are
exactly the parse-failing segments in order. -/
theorem c7_decode_errors (msg : String) :
    (parse_message msg = .error () ↔ ∃ seg ∈ splitSegs msg.data, segScalar seg = true)
    ∧ (∀ (frames : List Payload) (obs : List (List Char)),
        parse_message msg = .ok (frames, obs) →
        frames = (splitSegs msg.data).filterMap segFrame
        ∧ obs = (splitSegs msg.data).filter segDrops) := by
  unfold parse_message
  by_cases hemp : msg.data = []
  · rw [if_pos hemp, hemp]
    constructor
    · constructor
      · intro h
        exact absurd h (by simp)
      · rintro ⟨seg, hseg, _⟩
        rw [show splitSegs [] = [] from rfl] at hseg
        simp at hseg
    · intro frames obs h
      rw [show splitSegs ([] : List Char) = [] from rfl]
      simp only [Except.ok.injEq, Prod.mk.injEq] at h
      obtain ⟨h1, h2⟩ := h
      simp [← h1, ← h2]
  · rw [if_neg hemp]
    have hs := parseLoop_spec (splitSegs msg.data) [] []
    refine ⟨hs.1, fun frames obs h => ?_⟩
    obtain ⟨h1, h2⟩ := hs.2 (frames, obs) h
    simp only [List.nil_append] at h1 h2
    exact ⟨h1, h2⟩

/-- C7 witness: a scalar segment aborts the decode; a malformed segment
followed by a valid object still yields that object's frame with one
observation. -/
theorem c7_witness :
    parse_message "~m~1~m~5" = .error ()
    ∧ ([Payload.event (Json.obj [])]
          = (splitSegs ("~m~7~m~notjson~m~2~m~\x7b\x7d".data)).filterMap segFrame
        ∧ ["notjson".data]
          = (splitSegs ("~m~7~m~notjson~m~2~m~\x7b\x7d".data)).filter segDrops) :=
  ⟨(c7_decode_errors "~m~1~m~5").1.mpr ⟨"5".data, by decide, by decide⟩,
   (c7_decode_errors "~m~7~m~notjson~m~2~m~\x7b\x7d").2 [Payload.event (Json.obj [])]
     ["notjson".data] (by rfl)⟩
